import Mathlib

/-!
Shallow embedding of M45-Science/RelayUpdater (relay_uploader.go) together
with theorems checking the natural-language specification against it.

The Go program is a single-file release pipeline.  Pure computations
(version resolution via the Masterminds semver v3 library, the manifest
upsert rule, artifact selection and renaming, SHA-256 checksumming, JSON
marshalling of the manifest) are translated into executable Lean
definitions.  Stateful parts (file system, remote ssh/scp side effects)
are modelled by explicit data: directory listings as lists of entries,
file contents as byte lists, and the tail of `main` as a trace of events.

Machine integers are modelled as `Nat` with explicit `% 2 ^ 64` or
`% 2 ^ 32` where Go overflow semantics matter (semver components are Go
`uint64`; SHA-256 words are `uint32`).
-/

namespace RelayUpdater

/-! ## Data model (updater.go lines 22-35) -/

/-- Go constant `dlDir = "downloads"` (line 23). -/
def dlDir : String := "downloads"

/-- Go struct `downloadInfo` (lines 26-29): one artifact reference of a
release entry, with JSON field names `link` and `sha256`. -/
structure downloadInfo where
  link : String
  checksum : String
deriving DecidableEq

/-- Go struct `Entry` (lines 31-35): one release entry of the manifest,
with JSON field names `version`, `utc-unixnano` and `links`.  `Date` is a
Go `int64`; it is modelled as `Int` (its JSON round trip is exact for all
int64 values and the program never does arithmetic on it). -/
structure Entry where
  version : String
  date : Int
  links : List downloadInfo
deriving DecidableEq

/-! ## Manifest upsert (updater.go lines 316-324) -/

/-- Go `upsertEntry` (lines 316-324): walk the entries in order; the first
entry whose `Version` equals the new entry's is overwritten in place and
the walk stops; if none matches, the new entry is appended. -/
def upsertEntry : List Entry → Entry → List Entry
  | [], newEntry => [newEntry]
  | e :: rest, newEntry =>
    if e.version = newEntry.version then newEntry :: rest
    else e :: upsertEntry rest newEntry

/-- Spec-level rendering of `upsert` (spec section 4.1), written from the
spec's words for comparison with `upsertEntry`: if some existing entry has
the same version, the first such entry is replaced in place (all positions
preserved); otherwise the new entry is appended. -/
def specUpsert (entries : List Entry) (e : Entry) : List Entry :=
  match entries.findIdx? (fun x => x.version = e.version) with
  | some i => entries.set i e
  | none => entries ++ [e]

/-! ## JSON model of the manifest file (updater.go lines 159-183)

`writeEntries` serializes with Go `encoding/json.MarshalIndent` and
`readEntries` parses with `encoding/json.Unmarshal`.  Both are modelled at
the level of JSON values: `Json` is the tree a manifest file parses to,
marshalling maps Go values to trees exactly as `encoding/json` does for
these struct types (struct fields in declaration order under their tag
names, `int64` as an exact integer literal, slices as arrays), and
unmarshalling follows `encoding/json`'s behaviour on these types: a
missing or `null` field leaves the Go zero value, a `null` array element
leaves a zero struct, any other type mismatch is an error.  The byte-level
rendering/parsing done by the Go standard library is treated as a faithful
codec between file text and `Json` trees; a file whose text is not valid
JSON at all is modelled by the `FileState.invalidText` state below. -/

/-- A JSON value.  Numbers are modelled as integers: the only numeric
field in the schema is the `int64` timestamp, whose JSON round trip is
exact. -/
inductive Json where
  | null : Json
  | str : String → Json
  | num : Int → Json
  | arr : List Json → Json
  | obj : List (String × Json) → Json

/-- `encoding/json` marshalling of `downloadInfo`: fields in declaration
order under their struct-tag names. -/
def marshalDownloadInfo (d : downloadInfo) : Json :=
  .obj [("link", .str d.link), ("sha256", .str d.checksum)]

/-- `encoding/json` marshalling of `Entry`. -/
def marshalEntry (e : Entry) : Json :=
  .obj [("version", .str e.version), ("utc-unixnano", .num e.date),
        ("links", .arr (e.links.map marshalDownloadInfo))]

/-- Go `writeEntries` (lines 177-183) at the JSON-value level:
`json.MarshalIndent(ents, "", "  ")` of a `[]Entry` produces the array of
the marshalled entries. -/
def writeEntriesJson (ents : List Entry) : Json :=
  .arr (ents.map marshalEntry)

/-- Field lookup as `encoding/json` decodes objects: keys are processed
in order and a later duplicate overwrites an earlier one, so the last
exact match wins.  (Go additionally falls back to case-insensitive
matching for keys that match no field exactly; that fallback is
unreachable for trees produced by `writeEntriesJson` and does not affect
the claims, so it is not modelled.)  Unknown keys are ignored. -/
def lookupLast (fields : List (String × Json)) (k : String) : Option Json :=
  fields.foldl (fun acc kv => if kv.1 = k then some kv.2 else acc) none

/-- `encoding/json` unmarshalling of one `downloadInfo` from a JSON value:
`null` yields the zero struct, an object decodes each field (missing or
`null` string field yields `""`, non-string is an error), anything else is
an error. -/
def unmarshalDownloadInfo : Json → Option downloadInfo
  | .null => some ⟨"", ""⟩
  | .obj fields =>
    let linkField :=
      match lookupLast fields "link" with
      | none => some ""
      | some .null => some ""
      | some (.str s) => some s
      | some _ => none
    let sumField :=
      match lookupLast fields "sha256" with
      | none => some ""
      | some .null => some ""
      | some (.str s) => some s
      | some _ => none
    match linkField, sumField with
    | some l, some c => some ⟨l, c⟩
    | _, _ => none
  | _ => none

/-- Element-wise decoding of a JSON array: every element must decode,
as `encoding/json` aborts on the first failing element. -/
def mapOption (f : α → Option β) : List α → Option (List β)
  | [] => some []
  | x :: xs =>
    match f x, mapOption f xs with
    | some y, some ys => some (y :: ys)
    | _, _ => none

/-- `encoding/json` unmarshalling of a `[]downloadInfo` value. -/
def unmarshalLinks : Json → Option (List downloadInfo)
  | .null => some []
  | .arr l => mapOption unmarshalDownloadInfo l
  | _ => none

/-- `encoding/json` unmarshalling of one `Entry` from a JSON value. -/
def unmarshalEntry : Json → Option Entry
  | .null => some ⟨"", 0, []⟩
  | .obj fields =>
    let versionField :=
      match lookupLast fields "version" with
      | none => some ""
      | some .null => some ""
      | some (.str s) => some s
      | some _ => none
    let dateField :=
      match lookupLast fields "utc-unixnano" with
      | none => some (0 : Int)
      | some .null => some 0
      | some (.num n) => some n
      | some _ => none
    let linksField :=
      match lookupLast fields "links" with
      | none => some []
      | some j => unmarshalLinks j
    match versionField, dateField, linksField with
    | some v, some d, some l => some ⟨v, d, l⟩
    | _, _, _ => none
  | _ => none

/-- Go `readEntries`' `json.Unmarshal(data, &ents)` (line 171) at the
JSON-value level: the file value must be an array (or `null`, which
leaves the nil slice) and every element must decode as an `Entry`. -/
def unmarshalEntries : Json → Option (List Entry)
  | .null => some []
  | .arr l => mapOption unmarshalEntry l
  | _ => none

/-- State of the manifest file on disk: absent, present but not valid
JSON text, or present with JSON value `j`. -/
inductive FileState where
  | missing : FileState
  | invalidText : FileState
  | content : Json → FileState

/-- Errors surfaced by the manifest loader: the file exists but does not
parse against the schema (`ManifestCorrupt` in the spec's taxonomy). -/
inductive ReadError where
  | corrupt : ReadError
deriving DecidableEq

/-- Go `readEntries` (lines 159-175) over the file-state model: a missing
file is initialised by writing an empty manifest and returns the empty
sequence; an existing file that does not unmarshal is an error and the
file is left untouched.  The result pairs the returned value with the
file state after the call. -/
def readEntries : FileState → Except ReadError (List Entry) × FileState
  | .missing => (.ok [], .content (writeEntriesJson []))
  | .invalidText => (.error .corrupt, .invalidText)
  | .content j =>
    match unmarshalEntries j with
    | some ents => (.ok ents, .content j)
    | none => (.error .corrupt, .content j)

/-! ## Masterminds semver v3 (`github.com/Masterminds/semver/v3`)

The program resolves versions with this external library (updater.go
lines 19, 63-76).  The library is embedded from its source: `NewVersion`
(the lenient parser: optional leading `v`, minor and patch components
optional and zero-filled, pre-release/metadata validated for charset and
for numeric identifiers with leading zeros), `Version.String`,
`Version.IncPatch` (which clears pre-release/metadata and increments the
patch only when there is no pre-release), `Version.Compare` /
`GreaterThan`, and `MustParse("0.0.0")`.  Version components are Go
`uint64`, modelled as `Nat` with `% 2 ^ 64` where Go wraps.  Go compares
pre-release identifiers as raw byte strings; identifiers are validated to
the ASCII set `[0-9A-Za-z-]`, on which byte order and code-point order
coincide, so strings are compared by code points. -/

/-- `2 ^ 64`, the modulus of Go `uint64` arithmetic. -/
def uint64Mod : Nat := 18446744073709551616

/-- A parsed `semver.Version`: numeric components plus the raw
pre-release and build-metadata strings (empty string = absent), as the
library stores them. -/
structure GoVersion where
  major : Nat
  minor : Nat
  patch : Nat
  pre : String
  metadata : String
deriving DecidableEq

/-- The library's identifier charset `[0-9A-Za-z-]` (its `allowed`
constant / the regex character class). -/
def isAllowedChar (c : Char) : Bool :=
  c.isDigit || c.isAlpha || c == '-'

/-- Numeric value of a decimal digit character. -/
def digitVal (c : Char) : Nat := c.toNat - 48

/-- Decimal value of a digit list, most significant first, accumulator
form (the order `strconv.ParseUint` consumes digits). -/
def digitsToNatAux (acc : Nat) : List Char → Nat
  | [] => acc
  | c :: rest => digitsToNatAux (10 * acc + digitVal c) rest

/-- Decimal value of a digit list, most significant first. -/
def digitsToNat (l : List Char) : Nat := digitsToNatAux 0 l

/-- Go `strconv.ParseUint(s, 10, 64)`: succeeds on a nonempty all-digit
string whose value fits in a `uint64`. -/
def parseUint64 (l : List Char) : Option Nat :=
  if l ≠ [] ∧ l.all Char.isDigit = true ∧ digitsToNat l < uint64Mod then
    some (digitsToNat l)
  else none

/-- Go `strings.Split(s, ".")` on character lists: the dot-separated
pieces, keeping empties (`Split("", ".") = [""]`). -/
def splitOnDot : List Char → List (List Char)
  | [] => [[]]
  | c :: rest =>
    if c = '.' then [] :: splitOnDot rest
    else
      match splitOnDot rest with
      | [] => [[c]]
      | p :: ps => (c :: p) :: ps

/-- Joins identifier parts with dots: the raw substring the parser's
pre-release/metadata capture group matched. -/
def joinDots : List (List Char) → List Char
  | [] => []
  | [p] => p
  | p :: rest => p ++ '.' :: joinDots rest

/-- One pre-release/metadata identifier validity test of the library's
`validatePrerelease`: an all-digit identifier must not have a leading
zero (unless it is a single digit); any other identifier must use only
the allowed charset. -/
def validPrePart (p : List Char) : Bool :=
  if p.all Char.isDigit then
    match p with
    | '0' :: _ :: _ => false
    | _ => true
  else p.all isAllowedChar

/-- The library's `validatePrerelease`: every dot-separated identifier
passes `validPrePart`. -/
def validatePre (s : List Char) : Bool :=
  (splitOnDot s).all validPrePart

/-- The library's `validateMetadata`: every dot-separated identifier uses
only the allowed charset. -/
def validateMeta (s : List Char) : Bool :=
  (splitOnDot s).all (fun p => p.all isAllowedChar)

/-- Worker for `parseDotted`: consumes a dotted identifier sequence
`identifier ("." identifier)*` greedily.  `cur` holds the characters of
the identifier being read (reversed), `acc` the completed identifiers
(reversed).  Fails when a dot is not preceded or followed by an
identifier character (the anchored regex then has no match at all, since
nothing else can consume the dot). -/
def parseDottedAux : List Char → List Char → List (List Char) → Option (List (List Char) × List Char)
  | [], cur, acc =>
    if cur = [] then none else some ((cur.reverse :: acc).reverse, [])
  | c :: rest, cur, acc =>
    if isAllowedChar c then parseDottedAux rest (c :: cur) acc
    else if c = '.' then
      if cur = [] then none else parseDottedAux rest [] (cur.reverse :: acc)
    else if cur = [] then none
    else some ((cur.reverse :: acc).reverse, c :: rest)

/-- Parses a full dotted identifier sequence `identifier ("." identifier)*`,
returning the identifiers and the unconsumed rest. -/
def parseDotted (l : List Char) : Option (List (List Char) × List Char) :=
  parseDottedAux l [] []

/-- The optional `(\.[0-9]+)?` group of the version regex: when the rest
starts with a dot followed by at least one digit, consume them; otherwise
leave the rest untouched (the component defaults to zero). -/
def optDotDigits : List Char → Option (List Char) × List Char
  | '.' :: r =>
    let d := r.takeWhile Char.isDigit
    if d = [] then (none, '.' :: r) else (some d, r.dropWhile Char.isDigit)
  | l => (none, l)

/-- The optional pre-release section `(-identifiers)?`: a leading dash
must be followed by a valid dotted identifier sequence, else no match
exists at all. -/
def parsePreSection : List Char → Option (List (List Char) × List Char)
  | '-' :: r => parseDotted r
  | l => some ([], l)

/-- The optional build-metadata section `(\+identifiers)?`. -/
def parseMetaSection : List Char → Option (List (List Char) × List Char)
  | '+' :: r => parseDotted r
  | l => some ([], l)

/-- The library's lenient `semver.NewVersion`: anchored match of
`v?([0-9]+)(\.[0-9]+)?(\.[0-9]+)?(-ids)?(\+ids)?`, each numeric component
read with `ParseUint` (base 10, 64 bits), missing minor/patch components
zero-filled, then `validatePrerelease`/`validateMetadata` on the captured
pre-release/metadata substrings.  Returns `none` exactly when the Go call
returns an error. -/
def NewVersion (s : String) : Option GoVersion :=
  let l0 := s.data
  let l1 :=
    match l0 with
    | 'v' :: rest => rest
    | _ => l0
  let mjrD := l1.takeWhile Char.isDigit
  let l2 := l1.dropWhile Char.isDigit
  if mjrD = [] then none
  else
    match optDotDigits l2 with
    | (minD, l3) =>
      match optDotDigits l3 with
      | (patD, l4) =>
        match parsePreSection l4 with
        | none => none
        | some (preParts, l5) =>
          match parseMetaSection l5 with
          | none => none
          | some (metaParts, l6) =>
            if l6 ≠ [] then none
            else
              let minorVal :=
                match minD with
                | none => some 0
                | some d => parseUint64 d
              let patchVal :=
                match patD with
                | none => some 0
                | some d => parseUint64 d
              match parseUint64 mjrD, minorVal, patchVal with
              | some mj, some mi, some pa =>
                let preStr := joinDots preParts
                let metaStr := joinDots metaParts
                if preStr ≠ [] ∧ validatePre preStr = false then none
                else if metaStr ≠ [] ∧ validateMeta metaStr = false then none
                else some ⟨mj, mi, pa, String.mk preStr, String.mk metaStr⟩
              | _, _, _ => none

/-- `semver.MustParse("0.0.0")` (updater.go line 70). -/
def v000 : GoVersion := ⟨0, 0, 0, "", ""⟩

/-- `Version.String()`: `major.minor.patch`, then `-pre` when a
pre-release is present, then `+metadata` when metadata is present. -/
def verString (v : GoVersion) : String :=
  toString v.major ++ "." ++ toString v.minor ++ "." ++ toString v.patch
    ++ (if v.pre = "" then "" else "-" ++ v.pre)
    ++ (if v.metadata = "" then "" else "+" ++ v.metadata)

/-- `Version.IncPatch()`: with a pre-release present, clear pre-release
and metadata and leave the patch unchanged; otherwise clear metadata and
increment the patch (Go `uint64` addition, hence the modulus). -/
def IncPatch (v : GoVersion) : GoVersion :=
  if v.pre ≠ "" then { v with pre := "", metadata := "" }
  else { v with patch := (v.patch + 1) % uint64Mod, metadata := "" }

/-- The library's `compareSegment` on numeric components. -/
def compareSegment (a b : Nat) : Int :=
  if a < b then -1 else if b < a then 1 else 0

/-- Code-point lexicographic comparison of character lists: Go's raw
string comparison, which on the validated ASCII identifiers coincides
with byte order. -/
def lexCmpChars : List Char → List Char → Int
  | [], [] => 0
  | [], _ :: _ => -1
  | _ :: _, [] => 1
  | a :: as, b :: bs =>
    if a.toNat < b.toNat then -1
    else if b.toNat < a.toNat then 1
    else lexCmpChars as bs

/-- The library's `comparePrePart` on one pair of dot-separated
identifiers: equal strings are equal; an empty (padding) identifier is
below any nonempty one; identifiers parsing as `uint64` compare
numerically and below non-numeric ones; otherwise raw string order. -/
def comparePrePart (s o : List Char) : Int :=
  if s = o then 0
  else if s = [] then (if o ≠ [] then -1 else 1)
  else if o = [] then 1
  else
    match parseUint64 s, parseUint64 o with
    | none, none => if lexCmpChars s o > 0 then 1 else -1
    | some _, none => -1
    | none, some _ => 1
    | some si, some oi => if si > oi then 1 else -1

/-- The tail of `comparePrerelease`'s loop once the first identifier
list is exhausted: each remaining identifier of the second list is
compared against the empty padding. -/
def cmpNilPartList : List (List Char) → Int
  | [] => 0
  | o :: os =>
    let d := comparePrePart [] o
    if d ≠ 0 then d else cmpNilPartList os

/-- The loop of the library's `comparePrerelease`: walk both identifier
lists up to the longer length, padding the shorter with empty
identifiers, and return the first nonzero identifier comparison. -/
def cmpPartLists : List (List Char) → List (List Char) → Int
  | [], os => cmpNilPartList os
  | s :: ss, [] =>
    let d := comparePrePart s []
    if d ≠ 0 then d else cmpPartLists ss []
  | s :: ss, o :: os =>
    let d := comparePrePart s o
    if d ≠ 0 then d else cmpPartLists ss os

/-- The library's `comparePrerelease`: split both pre-release strings on
dots and compare identifier-wise. -/
def comparePrerelease (a b : String) : Int :=
  cmpPartLists (splitOnDot a.data) (splitOnDot b.data)

/-- `Version.Compare`: major, minor, patch numerically; then a version
without pre-release is above one with; two pre-releases compare by
`comparePrerelease`.  Build metadata is ignored. -/
def compareVer (v o : GoVersion) : Int :=
  let d1 := compareSegment v.major o.major
  if d1 ≠ 0 then d1
  else
    let d2 := compareSegment v.minor o.minor
    if d2 ≠ 0 then d2
    else
      let d3 := compareSegment v.patch o.patch
      if d3 ≠ 0 then d3
      else
        if v.pre = "" ∧ o.pre = "" then 0
        else if v.pre = "" then 1
        else if o.pre = "" then -1
        else comparePrerelease v.pre o.pre

/-- `Version.GreaterThan`: `Compare(o) > 0`. -/
def GreaterThan (v o : GoVersion) : Bool := compareVer v o > 0

/-! ## Version resolution (updater.go lines 60-77) -/

/-- Explicit mode (lines 62-68): the supplied string must parse with
`semver.NewVersion` (or `main` exits with the invalid-version error);
the canonical `String()` form is used downstream. -/
def pickNewVersionExplicit (manualVer : String) : Option String :=
  (NewVersion manualVer).map verString

/-- The body of the loop at lines 71-75: an entry whose version parses
and is strictly greater than the accumulator replaces it; any other
entry leaves it unchanged. -/
def foldStep (highest : GoVersion) (e : Entry) : GoVersion :=
  match NewVersion e.version with
  | some v => if GreaterThan v highest then v else highest
  | none => highest

/-- The loop of lines 70-75: fold over the manifest entries starting
from `MustParse("0.0.0")`, replacing the accumulator whenever an entry's
version parses and is strictly greater. -/
def foldHighest (entries : List Entry) : GoVersion :=
  entries.foldl foldStep v000

/-- Automatic mode (lines 69-76): `highest.IncPatch().String()`. -/
def pickNewVersionAuto (entries : List Entry) : String :=
  verString (IncPatch (foldHighest entries))

/-- The versions of the manifest entries that parse, in order. -/
def parsedVersions (entries : List Entry) : List GoVersion :=
  entries.filterMap (fun e => NewVersion e.version)

/-- The claim's reading of automatic resolution, written from the spec's
words for comparison with `pickNewVersionAuto`: the maximum of the
parsable versions under semantic-version ordering (`0.0.0` when none
parse), with the patch component incremented by one and
pre-release/build metadata cleared. -/
def specAutoVersion (entries : List Entry) : String :=
  let m :=
    match parsedVersions entries with
    | [] => v000
    | v :: vs => vs.foldl (fun h u => if GreaterThan u h then u else h) v
  verString ⟨m.major, m.minor, m.patch + 1, "", ""⟩

/-! ## Artifact staging (updater.go lines 185-227) -/

/-- One immediate entry of the source directory as `os.ReadDir` reports
it: name, directory flag, permission bits, and (for regular files) the
byte content.  Bytes are `Nat`s below 256. -/
structure DirEntry where
  name : String
  isDir : Bool
  mode : Nat
  content : List Nat
deriving DecidableEq

/-- A file staged into the version directory: its new name, the
permission bits it was created with, and its byte content. -/
structure StagedFile where
  name : String
  mode : Nat
  content : List Nat
deriving DecidableEq

/-- Go `filepath.Ext`: the suffix of the name starting at its final dot
(the names here have no path separators); empty when there is no dot. -/
def extChars : List Char → List Char
  | [] => []
  | c :: rest =>
    match extChars rest with
    | [] => if c = '.' then c :: rest else []
    | r => r

/-- `filepath.Ext` on strings. -/
def goExt (s : String) : String := String.mk (extChars s.data)

/-- ASCII lower-casing, as Go's simple case folding acts on the ASCII
range (the only range that can fold onto the literal `".zip"`). -/
def toLowerAscii (c : Char) : Char :=
  if 'A' ≤ c ∧ c ≤ 'Z' then Char.ofNat (c.toNat + 32) else c

/-- Go `strings.EqualFold` restricted to the comparisons the program
makes (against the ASCII literal `".zip"`), where Unicode simple folding
coincides with ASCII case folding. -/
def eqFold (a b : String) : Bool :=
  a.data.map toLowerAscii == b.data.map toLowerAscii

/-- Go `strings.TrimSuffix`: drops the suffix when present, otherwise
returns the string unchanged. -/
def trimSuffix (s suffix : String) : String :=
  if suffix.data.isSuffixOf s.data then
    String.mk (s.data.take (s.data.length - suffix.data.length))
  else s

/-- The new name a selected file `<name>` is staged under (updater.go
lines 196-197): `<base>-<ver>.zip` with `<base>` the name minus its
extension — note the literal lowercase `.zip`. -/
def stagedName (de : DirEntry) (ver : String) : String :=
  trimSuffix de.name (goExt de.name) ++ "-" ++ ver ++ ".zip"

/-- Go `copyFile` (lines 210-227) at the byte level: the destination is
created with the source's permission bits and receives exactly the
source's bytes (`io.Copy` of the whole file). -/
def copyFile (de : DirEntry) (newName : String) : StagedFile :=
  ⟨newName, de.mode, de.content⟩

/-- Go `collectAndRenameZips` (lines 185-208): walk the directory
entries in listing order, skip directories, select names whose extension
case-insensitively equals `".zip"`, copy each selected file under its
staged name, and fail when nothing matched.  `srcDir` only feeds the
error message. -/
def collectAndRenameZips (srcDir : String) (entries : List DirEntry) (ver : String) :
    Except String (List StagedFile) :=
  let out := entries.foldl
    (fun acc de =>
      if de.isDir then acc
      else if eqFold (goExt de.name) ".zip" then
        acc ++ [copyFile de (stagedName de ver)]
      else acc)
    []
  if out = [] then .error ("no .zip files found in " ++ srcDir) else .ok out

/-- Spec-level selection: the regular (non-directory) immediate entries
whose extension case-insensitively matches the archive type. -/
def selectZips (entries : List DirEntry) : List DirEntry :=
  entries.filter (fun de => !de.isDir && eqFold (goExt de.name) ".zip")

/-! ## SHA-256 (Go `crypto/sha256`, used by `computeChecksum`, lines 229-241)

Full executable FIPS 180-4 SHA-256 over byte lists.  Words are `uint32`,
modelled as `Nat` reduced by `% 2 ^ 32`.  The round and initial constants
are computed from their definitions (fractional parts of cube/square
roots of the first primes). -/

/-- Reduction to a 32-bit word. -/
def w32 (n : Nat) : Nat := n % 4294967296

/-- 32-bit right rotation. -/
def rotr32 (n a : Nat) : Nat := w32 ((a >>> n) ||| (a <<< (32 - n)))

/-- 32-bit bitwise complement of a value below `2 ^ 32`. -/
def not32 (a : Nat) : Nat := 4294967295 - a

/-- SHA-256 `Ch`. -/
def shaCh (x y z : Nat) : Nat := (x &&& y) ^^^ (not32 (w32 x) &&& z)

/-- SHA-256 `Maj`. -/
def shaMaj (x y z : Nat) : Nat := (x &&& y) ^^^ (x &&& z) ^^^ (y &&& z)

/-- SHA-256 `Σ₀`. -/
def bsig0 (x : Nat) : Nat := rotr32 2 x ^^^ rotr32 13 x ^^^ rotr32 22 x

/-- SHA-256 `Σ₁`. -/
def bsig1 (x : Nat) : Nat := rotr32 6 x ^^^ rotr32 11 x ^^^ rotr32 25 x

/-- SHA-256 `σ₀`. -/
def ssig0 (x : Nat) : Nat := rotr32 7 x ^^^ rotr32 18 x ^^^ (x >>> 3)

/-- SHA-256 `σ₁`. -/
def ssig1 (x : Nat) : Nat := rotr32 17 x ^^^ rotr32 19 x ^^^ (x >>> 10)

/-- Bounded binary search for the integer cube root (largest `r` with
`r ^ 3 ≤ n`); the fuel of 150 halvings covers every interval `[0, n]`
arising from the constant computations below. -/
def cbrtAux : Nat → Nat → Nat → Nat → Nat
  | _, lo, _, 0 => lo
  | n, lo, hi, fuel + 1 =>
    if lo < hi then
      let mid := (lo + hi + 1) / 2
      if mid * mid * mid ≤ n then cbrtAux n mid hi fuel else cbrtAux n lo (mid - 1) fuel
    else lo

/-- Integer cube root. -/
def natCbrt (n : Nat) : Nat := cbrtAux n 0 n 150

/-- The first 64 primes, whose cube roots yield the SHA-256 round
constants. -/
def first64Primes : List Nat :=
  [2, 3, 5, 7, 11, 13, 17, 19, 23, 29, 31, 37, 41, 43, 47, 53,
   59, 61, 67, 71, 73, 79, 83, 89, 97, 101, 103, 107, 109, 113, 127, 131,
   137, 139, 149, 151, 157, 163, 167, 173, 179, 181, 191, 193, 197, 199, 211, 223,
   227, 229, 233, 239, 241, 251, 257, 263, 269, 271, 277, 281, 283, 293, 307, 311]

/-- The 64 SHA-256 round constants: the first 32 bits of the fractional
parts of the cube roots of the first 64 primes. -/
def K256 : List Nat :=
  first64Primes.map (fun p => natCbrt (p * 79228162514264337593543950336) % 4294967296)

/-- The SHA-256 working state / hash value: eight 32-bit words. -/
structure Hash8 where
  a : Nat
  b : Nat
  c : Nat
  d : Nat
  e : Nat
  f : Nat
  g : Nat
  h : Nat
deriving DecidableEq

/-- The first 32 bits of the fractional part of the square root of `p`. -/
def fracSqrt32 (p : Nat) : Nat :=
  Nat.sqrt (p * 18446744073709551616) % 4294967296

/-- The SHA-256 initial hash value: fractional square roots of the first
eight primes. -/
def sha256H0 : Hash8 :=
  ⟨fracSqrt32 2, fracSqrt32 3, fracSqrt32 5, fracSqrt32 7,
   fracSqrt32 11, fracSqrt32 13, fracSqrt32 17, fracSqrt32 19⟩

/-- The sixteen big-endian 32-bit words of one 64-byte block. -/
def wordsOfBlock (block : List Nat) : List Nat :=
  (List.range 16).map (fun i =>
    block.getD (4 * i) 0 * 16777216 + block.getD (4 * i + 1) 0 * 65536 +
      block.getD (4 * i + 2) 0 * 256 + block.getD (4 * i + 3) 0)

/-- One message-schedule extension step: appends
`σ₁(w[i-2]) + w[i-7] + σ₀(w[i-15]) + w[i-16]`. -/
def scheduleStep (w : List Nat) : List Nat :=
  let i := w.length
  w ++ [w32 (ssig1 (w.getD (i - 2) 0) + w.getD (i - 7) 0 +
    ssig0 (w.getD (i - 15) 0) + w.getD (i - 16) 0)]

/-- The 64-word message schedule of one block. -/
def schedule (block : List Nat) : List Nat :=
  (List.range 48).foldl (fun w _ => scheduleStep w) (wordsOfBlock block)

/-- One SHA-256 compression round for a `(Kₜ, Wₜ)` pair. -/
def sha256Round (st : Hash8) (kw : Nat × Nat) : Hash8 :=
  let t1 := w32 (st.h + bsig1 st.e + shaCh st.e st.f st.g + kw.1 + kw.2)
  let t2 := w32 (bsig0 st.a + shaMaj st.a st.b st.c)
  ⟨w32 (t1 + t2), st.a, st.b, st.c, w32 (st.d + t1), st.e, st.f, st.g⟩

/-- Compression of one 64-byte block into the running hash. -/
def compressBlock (H : Hash8) (block : List Nat) : Hash8 :=
  let st := (K256.zip (schedule block)).foldl sha256Round H
  ⟨w32 (H.a + st.a), w32 (H.b + st.b), w32 (H.c + st.c), w32 (H.d + st.d),
   w32 (H.e + st.e), w32 (H.f + st.f), w32 (H.g + st.g), w32 (H.h + st.h)⟩

/-- A 64-bit value as eight big-endian bytes. -/
def be64 (n : Nat) : List Nat :=
  [n / 72057594037927936 % 256, n / 281474976710656 % 256,
   n / 1099511627776 % 256, n / 4294967296 % 256,
   n / 16777216 % 256, n / 65536 % 256, n / 256 % 256, n % 256]

/-- SHA-256 padding: a `0x80` byte, zeros to 56 mod 64, and the bit
length as a big-endian 64-bit value. -/
def padMessage (msg : List Nat) : List Nat :=
  let r := msg.length % 64
  let zeros := if r < 56 then 55 - r else 119 - r
  msg ++ 128 :: (List.replicate zeros 0 ++ be64 (msg.length * 8 % uint64Mod))

/-- The 64-byte blocks of a padded message. -/
def sha256Blocks (padded : List Nat) : List (List Nat) :=
  (List.range (padded.length / 64)).map (fun i => (padded.drop (64 * i)).take 64)

/-- A 32-bit word as four big-endian bytes. -/
def be32 (word : Nat) : List Nat :=
  [word / 16777216 % 256, word / 65536 % 256, word / 256 % 256, word % 256]

/-- The 32-byte digest rendering of a hash value. -/
def bytesOfHash (H : Hash8) : List Nat :=
  be32 H.a ++ be32 H.b ++ be32 H.c ++ be32 H.d ++ be32 H.e ++ be32 H.f ++ be32 H.g ++ be32 H.h

/-- SHA-256 of a byte list. -/
def sha256Bytes (msg : List Nat) : List Nat :=
  bytesOfHash ((sha256Blocks (padMessage msg)).foldl compressBlock sha256H0)

/-- The lowercase hexadecimal digit of `n % 16` (as `encoding/hex`
renders nibbles). -/
def hexDigit (n : Nat) : Char :=
  "0123456789abcdef".data.getD (n % 16) '0'

/-- `hex.EncodeToString`: two lowercase hex digits per byte, high nibble
first. -/
def hexEncodeBytes (bs : List Nat) : List Char :=
  bs.foldr (fun b acc => hexDigit (b / 16) :: hexDigit b :: acc) []

/-- Go `computeChecksum` (lines 229-241): stream the file's bytes
through SHA-256 and render the digest as lowercase hex. -/
def computeChecksum (content : List Nat) : String :=
  String.mk (hexEncodeBytes (sha256Bytes content))

/-- `filepath.Join` for the clean, separator-free components this
program joins (Go's path cleaning is the identity on them). -/
def pathJoin (a b : String) : String := a ++ "/" ++ b

/-- The link-building loop of `main` (lines 99-112): for each staged
file, in order, record its full path in the version directory and the
checksum of the file just staged there. -/
def buildLinks (versionDir : String) (staged : List StagedFile) : List downloadInfo :=
  staged.map (fun f => ⟨pathJoin versionDir f.name, computeChecksum f.content⟩)

/-! ## The tail of `main` as an event trace (updater.go lines 114-156)

Once the new version, the staged file names and the new entry are fixed,
the remainder of `main` is a straight-line sequence of effects; the trace
records them in program order, assuming each succeeds (any failure exits
the program, so the claims about which operations are issued concern the
successful prefix; the dry-run claims concern the full successful run). -/

/-- One effect of the pipeline tail: the local manifest write (line
120), the remote directory creation over ssh (line 127 /
`ensureRemoteDir`), one scp file transfer (lines 139 and 144 /
`uploadWithScp`), or one remote `ln -sfn` alias update (line 149 /
`updateLatestFileSymlinks`). -/
inductive Event where
  | writeManifest (path : String) (ents : List Entry)
  | remoteMkdir (hostPort user dir : String)
  | scpUpload (hostPort user remoteDir localPath : String)
  | remoteSymlink (hostPort user target link : String)
deriving DecidableEq

/-- Classifies the events that reach the remote host (everything but the
local manifest write). -/
def isRemoteEvent : Event → Bool
  | .writeManifest _ _ => false
  | _ => true

/-- Go `strings.TrimRight(s, "/")`: strips every trailing slash. -/
def trimRightSlashes (s : String) : String :=
  String.mk ((s.data.reverse.dropWhile (fun c => c == '/')).reverse)

/-- The remote version directory of line 126:
`TrimRight(remoteDir, "/") + "/" + dlDir + "/" + newVersion`. -/
def remoteVersionDir (remoteDir newVersion : String) : String :=
  trimRightSlashes remoteDir ++ "/" ++ dlDir ++ "/" ++ newVersion

/-- Go `updateLatestFileSymlinks` (lines 286-314) as events: for each
staged file name, repoint `<base>-latest.zip` at the version-scoped
path. -/
def latestSymlinkEvents (hostPort user remoteBase newVersion : String) (files : List String) :
    List Event :=
  files.map (fun f =>
    let generic := trimSuffix f ("-" ++ newVersion ++ ".zip") ++ "-latest.zip"
    .remoteSymlink hostPort user (pathJoin (pathJoin remoteBase newVersion) f)
      (pathJoin remoteBase generic))

/-- The effect trace of `main` lines 114-153: upsert the new entry and
write the manifest (always), issue the remote mkdir (always — line 127
sits outside the dry-run guard), and, unless `dryRun`, upload each
staged zip in order, upload the manifest, and update the aliases. -/
def mainTailEvents (dryRun : Bool) (hostPort user remoteDir jsonName newVersion : String)
    (entries : List Entry) (newEntry : Entry) (files : List String) : List Event :=
  let rvd := remoteVersionDir remoteDir newVersion
  let versionDir := pathJoin dlDir newVersion
  .writeManifest jsonName (upsertEntry entries newEntry) ::
    .remoteMkdir hostPort user rvd ::
    (if dryRun then []
     else
       files.map (fun f => .scpUpload hostPort user rvd (pathJoin versionDir f)) ++
         [.scpUpload hostPort user remoteDir jsonName] ++
         latestSymlinkEvents hostPort user (remoteDir ++ "/" ++ dlDir) newVersion files)

/-! ## Validity and ordering interface for parsed versions

`NewVersion` only emits versions whose pre-release identifiers are
nonempty, drawn from the allowed charset, and free of leading zeros when
numeric.  On such versions the library's comparison is a total preorder;
the predicates and the comparator-law interface below carry that
invariant through the fold of automatic version resolution. -/

/-- A pre-release identifier as `NewVersion` guarantees it: nonempty, in
the allowed charset, and passing the leading-zero validation. -/
def goodPart (p : List Char) : Prop :=
  p ≠ [] ∧ p.all isAllowedChar = true ∧ validPrePart p = true

/-- An identifier position as `comparePrerelease` sees it: either a real
(good) identifier or the empty padding used past the end of the shorter
list. -/
def PadOk (p : List Char) : Prop := p = [] ∨ goodPart p

/-- A version as `NewVersion` (or `MustParse("0.0.0")`, or `IncPatch`)
produces it: no pre-release, or every dot-separated pre-release
identifier good. -/
def PreOk (v : GoVersion) : Prop :=
  v.pre = "" ∨ ∀ p ∈ splitOnDot v.pre.data, goodPart p

/-- Lexicographic composition of two comparators: the second breaks the
first's ties (the `if d != 0 { return d }` cascade of `Version.Compare`). -/
def lexComp (f g : α → α → Int) (a b : α) : Int :=
  if f a b ≠ 0 then f a b else g a b

/-- The major-component layer of `Version.Compare`. -/
def majorComp (v o : GoVersion) : Int := compareSegment v.major o.major

/-- The minor-component layer of `Version.Compare`. -/
def minorComp (v o : GoVersion) : Int := compareSegment v.minor o.minor

/-- The patch-component layer of `Version.Compare`. -/
def patchComp (v o : GoVersion) : Int := compareSegment v.patch o.patch

/-- The pre-release layer of `Version.Compare`: absence of a pre-release
ranks above any pre-release; two pre-releases compare identifier-wise. -/
def preComp (v o : GoVersion) : Int :=
  if v.pre = "" ∧ o.pre = "" then 0
  else if v.pre = "" then 1
  else if o.pre = "" then -1
  else comparePrerelease v.pre o.pre

/-- The laws making an integer-valued comparator a total preorder on the
elements satisfying `P`: reflexive zeroes, antisymmetric signs, and
transitive non-positivity. -/
structure CmpLawsOn (P : α → Prop) (c : α → α → Int) : Prop where
  refl0 : ∀ a, P a → c a a = 0
  antisym : ∀ a b, P a → P b → c b a = -(c a b)
  trans_le : ∀ a b d, P a → P b → P d → c a b ≤ 0 → c b d ≤ 0 → c a d ≤ 0

/-! ## Theorems -/

/-! ### Manifest upsert: C4 and C10 -/

theorem upsertEntry_of_not_mem (entries : List Entry) (e : Entry)
    (h : ∀ x ∈ entries, x.version ≠ e.version) :
    upsertEntry entries e = entries ++ [e] := by
  induction entries with
  | nil => rfl
  | cons x xs ih =>
    have hx : x.version ≠ e.version := h x (List.mem_cons_self x xs)
    simp only [upsertEntry, if_neg hx, List.cons_append, List.cons.injEq, true_and]
    exact ih (fun y hy => h y (List.mem_cons_of_mem x hy))

theorem upsertEntry_replace_first (pre post : List Entry) (old e : Entry)
    (hver : old.version = e.version)
    (hpre : ∀ x ∈ pre, x.version ≠ e.version) :
    upsertEntry (pre ++ old :: post) e = pre ++ e :: post := by
  induction pre with
  | nil => simp [upsertEntry, hver]
  | cons x xs ih =>
    have hx : x.version ≠ e.version := hpre x (List.mem_cons_self x xs)
    simp only [List.cons_append, upsertEntry, if_neg hx, List.cons.injEq, true_and]
    exact ih (fun y hy => hpre y (List.mem_cons_of_mem x hy))

theorem upsertEntry_eq_specUpsert (entries : List Entry) (e : Entry) :
    upsertEntry entries e = specUpsert entries e := by
  induction entries with
  | nil => rfl
  | cons x xs ih =>
    by_cases hx : x.version = e.version
    · simp [upsertEntry, specUpsert, List.findIdx?_cons, hx]
    · simp only [upsertEntry, if_neg hx, specUpsert, List.findIdx?_cons,
        decide_eq_true_eq, if_neg hx, Option.map_eq_map]
      simp only [specUpsert] at ih
      cases hfind : xs.findIdx? (fun y => y.version = e.version) with
      | none => simp [hfind] at ih ⊢; simp [ih]
      | some i => simp [hfind] at ih ⊢; simp [ih]

theorem upsertEntry_idem (entries : List Entry) (e : Entry) :
    upsertEntry (upsertEntry entries e) e = upsertEntry entries e := by
  induction entries with
  | nil => simp [upsertEntry]
  | cons x xs ih =>
    by_cases hx : x.version = e.version
    · simp [upsertEntry, hx]
    · simp [upsertEntry, hx, ih]

/-- C4: `upsertEntry` replaces the first entry carrying the new entry's
version in place (all other entries and positions preserved) or appends
when none carries it — stated as agreement with the spec-level
`specUpsert` — and is idempotent. -/
theorem claim_C4 (entries : List Entry) (e : Entry) :
    upsertEntry entries e = specUpsert entries e ∧
      upsertEntry (upsertEntry entries e) e = upsertEntry entries e :=
  ⟨upsertEntry_eq_specUpsert entries e, upsertEntry_idem entries e⟩

theorem upsertEntry_versions (entries : List Entry) (e : Entry) :
    (upsertEntry entries e).map Entry.version =
      (if e.version ∈ entries.map Entry.version then entries.map Entry.version
       else entries.map Entry.version ++ [e.version]) := by
  induction entries with
  | nil => simp [upsertEntry]
  | cons x xs ih =>
    by_cases hx : x.version = e.version
    · simp [upsertEntry, hx]
    · have hne : ¬e.version = x.version := fun h => hx h.symm
      by_cases hmem : e.version ∈ xs.map Entry.version
      · simp [upsertEntry, hx, hmem, hne, ih]
      · simp [upsertEntry, hx, hmem, hne, ih]

/-- C10: when no two entries share a version, the upserted sequence
still has no two entries sharing a version; and when several entries
carry the new version, only the first is replaced, the later duplicates
surviving unchanged. -/
theorem claim_C10 (entries : List Entry) (e : Entry) :
    ((entries.map Entry.version).Nodup → ((upsertEntry entries e).map Entry.version).Nodup) ∧
      (∀ pre old post, entries = pre ++ old :: post → old.version = e.version →
        (∀ x ∈ pre, x.version ≠ e.version) →
        upsertEntry entries e = pre ++ e :: post) := by
  constructor
  · intro hnd
    rw [upsertEntry_versions]
    by_cases hmem : e.version ∈ entries.map Entry.version
    · simpa [hmem] using hnd
    · simp only [hmem, if_false]
      refine List.Nodup.append hnd (List.nodup_singleton _) ?_
      intro a ha hb
      rw [List.mem_singleton] at hb
      exact hmem (hb ▸ ha)
  · intro pre old post hsplit hver hpre
    subst hsplit
    exact upsertEntry_replace_first pre post old e hver hpre

/-- Witness for C10 at a concrete input: the duplicate-version case on
`[⟨"1.0.0"⟩, ⟨"1.0.0"⟩]` replaces only the first occurrence, and nodup
preservation holds on `[⟨"1.0.0"⟩]`. -/
theorem claim_C10_witness :
    upsertEntry [⟨"1.0.0", 1, []⟩, ⟨"1.0.0", 2, []⟩] ⟨"1.0.0", 9, []⟩ =
        [⟨"1.0.0", 9, []⟩, ⟨"1.0.0", 2, []⟩] ∧
      ((upsertEntry [⟨"1.0.0", 1, []⟩] ⟨"1.0.0", 9, []⟩).map Entry.version).Nodup := by
  constructor
  · exact (claim_C10 [⟨"1.0.0", 1, []⟩, ⟨"1.0.0", 2, []⟩] ⟨"1.0.0", 9, []⟩).2
      [] ⟨"1.0.0", 1, []⟩ [⟨"1.0.0", 2, []⟩] rfl rfl (by simp)
  · exact (claim_C10 [⟨"1.0.0", 1, []⟩] ⟨"1.0.0", 9, []⟩).1 (by decide)

/-! ### Manifest persistence: C5 and C9 -/

theorem unmarshalDownloadInfo_marshal (d : downloadInfo) :
    unmarshalDownloadInfo (marshalDownloadInfo d) = some d := rfl

theorem unmarshalLinks_marshal (links : List downloadInfo) :
    unmarshalLinks (.arr (links.map marshalDownloadInfo)) = some links := by
  induction links with
  | nil => rfl
  | cons d ds ih =>
    simp only [unmarshalLinks, List.map_cons, mapOption,
      unmarshalDownloadInfo_marshal] at ih ⊢
    rw [ih]

theorem unmarshalEntry_marshal (e : Entry) :
    unmarshalEntry (marshalEntry e) = some e := by
  have hl := unmarshalLinks_marshal e.links
  simp [marshalEntry, unmarshalEntry, lookupLast, hl]

/-- C5: saving any sequence of release entries and loading it back
returns the same sequence — every `version`, `utc-unixnano` and `links`
(`link`/`sha256`) field survives the JSON round trip unchanged. -/
theorem claim_C5 (ents : List Entry) :
    unmarshalEntries (writeEntriesJson ents) = some ents := by
  induction ents with
  | nil => rfl
  | cons e es ih =>
    simp only [writeEntriesJson, unmarshalEntries, List.map_cons, mapOption,
      unmarshalEntry_marshal] at ih ⊢
    rw [ih]

/-- C9: loading a missing manifest writes an empty, schema-valid
manifest and returns the empty sequence; loading an existing file that
is not valid JSON, or whose JSON value does not unmarshal against the
schema, fails with the corrupt-manifest error and changes nothing. -/
theorem claim_C9 :
    (readEntries .missing = (.ok [], .content (writeEntriesJson [])) ∧
        unmarshalEntries (writeEntriesJson []) = some []) ∧
      readEntries .invalidText = (.error .corrupt, .invalidText) ∧
      ∀ j, unmarshalEntries j = none →
        readEntries (.content j) = (.error .corrupt, .content j) := by
  refine ⟨⟨rfl, rfl⟩, rfl, fun j h => ?_⟩
  simp [readEntries, h]

/-- Witness for C9 at a concrete input: a manifest file holding the
JSON number `0` does not unmarshal and is rejected as corrupt. -/
theorem claim_C9_witness :
    readEntries (.content (Json.num 0)) = (.error .corrupt, .content (Json.num 0)) :=
  claim_C9.2.2 (Json.num 0) rfl

/-! ### Artifact staging: C7, C8 and C6 -/

theorem collectZips_foldl (ver : String) (entries : List DirEntry) (acc : List StagedFile) :
    entries.foldl
      (fun acc de =>
        if de.isDir then acc
        else if eqFold (goExt de.name) ".zip" then acc ++ [copyFile de (stagedName de ver)]
        else acc)
      acc
    = acc ++ (selectZips entries).map (fun de => copyFile de (stagedName de ver)) := by
  induction entries generalizing acc with
  | nil => simp [selectZips]
  | cons de rest ih =>
    cases hd : de.isDir with
    | true => simp [selectZips, List.filter_cons, hd, ih]
    | false =>
      cases hz : eqFold (goExt de.name) ".zip" with
      | true => simp [selectZips, List.filter_cons, hd, hz, ih]
      | false => simp [selectZips, List.filter_cons, hd, hz, ih]

theorem collectAndRenameZips_eq (srcDir : String) (entries : List DirEntry) (ver : String) :
    collectAndRenameZips srcDir entries ver =
      (if selectZips entries = [] then .error ("no .zip files found in " ++ srcDir)
       else .ok ((selectZips entries).map (fun de => copyFile de (stagedName de ver)))) := by
  unfold collectAndRenameZips
  rw [collectZips_foldl]
  simp only [List.nil_append]
  by_cases h : selectZips entries = []
  · simp [h]
  · simp [h, List.map_eq_nil_iff]

/-- C7 counterexample: the source file `a.ZIP` (uppercase extension,
selected by the case-insensitive match) is staged as `a-1.0.0.zip`, not
as `a-1.0.0.ZIP` — the original extension's spelling is not preserved. -/
theorem claim_C7_counterexample :
    collectAndRenameZips "../RelayClient" [⟨"a.ZIP", false, 420, [1, 2, 3]⟩] "1.0.0" =
        .ok [⟨"a-1.0.0.zip", 420, [1, 2, 3]⟩] ∧
      ¬ ("a-1.0.0.zip" = "a" ++ "-" ++ "1.0.0" ++ goExt "a.ZIP") := by
  constructor
  · rfl
  · decide

/-- C7 (amended): staging selects exactly the non-directory immediate
entries whose extension case-insensitively matches `".zip"`, and stages
each selected `<base>.<ext>` as `<base>-<version>.zip` — with the
literal lowercase `.zip` suffix rather than the original extension's
spelling — preserving the file's content and permission bits. -/
theorem claim_C7 (srcDir ver : String) (entries : List DirEntry) :
    collectAndRenameZips srcDir entries ver =
      (if selectZips entries = [] then .error ("no .zip files found in " ++ srcDir)
       else .ok ((selectZips entries).map
         (fun de =>
           ⟨trimSuffix de.name (goExt de.name) ++ "-" ++ ver ++ ".zip",
            de.mode, de.content⟩))) :=
  collectAndRenameZips_eq srcDir entries ver

/-- C8: a source directory with zero entries matching the archive type
makes staging fail with the no-artifacts error, and a successful staging
never returns an empty list. -/
theorem claim_C8 (srcDir ver : String) (entries : List DirEntry) :
    (selectZips entries = [] →
      collectAndRenameZips srcDir entries ver =
        .error ("no .zip files found in " ++ srcDir)) ∧
      ∀ l, collectAndRenameZips srcDir entries ver = .ok l → l ≠ [] := by
  have hc := collectAndRenameZips_eq srcDir entries ver
  constructor
  · intro h
    rw [hc, if_pos h]
  · intro l hl
    rw [hc] at hl
    by_cases h : selectZips entries = []
    · rw [if_pos h] at hl
      cases hl
    · rw [if_neg h] at hl
      cases hl
      simp only [ne_eq, List.map_eq_nil_iff]
      exact h

/-- Witness for C8 at concrete inputs: an empty directory listing fails
with the no-artifacts error, and a listing with one zip stages a
nonempty list. -/
theorem claim_C8_witness :
    collectAndRenameZips "../RelayClient" [] "0.0.1" =
        .error ("no .zip files found in " ++ "../RelayClient") ∧
      ([⟨"a-0.0.1.zip", 420, []⟩] : List StagedFile) ≠ [] := by
  constructor
  · exact (claim_C8 "../RelayClient" "0.0.1" []).1 rfl
  · exact (claim_C8 "../RelayClient" "0.0.1" [⟨"a.zip", false, 420, []⟩]).2
      [⟨"a-0.0.1.zip", 420, []⟩] (by rfl)

theorem hexDigit_mem (n : Nat) : hexDigit n ∈ "0123456789abcdef".data := by
  have h : n % 16 < 16 := Nat.mod_lt _ (by norm_num)
  unfold hexDigit
  generalize hm : n % 16 = m at h ⊢
  interval_cases m <;> decide

theorem hexEncodeBytes_mem (bs : List Nat) :
    ∀ c ∈ hexEncodeBytes bs, c ∈ "0123456789abcdef".data := by
  induction bs with
  | nil => intro c hc; cases hc
  | cons b rest ih =>
    intro c hc
    simp only [hexEncodeBytes, List.foldr, List.mem_cons] at hc
    rcases hc with hc | hc | hc
    · exact hc ▸ hexDigit_mem _
    · exact hc ▸ hexDigit_mem _
    · exact ih c hc

theorem hexEncodeBytes_length (bs : List Nat) :
    (hexEncodeBytes bs).length = 2 * bs.length := by
  induction bs with
  | nil => rfl
  | cons b rest ih =>
    simp only [hexEncodeBytes, List.foldr, List.length_cons] at ih ⊢
    omega

theorem sha256Bytes_length (msg : List Nat) : (sha256Bytes msg).length = 32 := rfl

/-- C6: the link-building loop records, for each staged artifact, the
checksum `hexEncodeBytes (sha256Bytes content)` of the original source
file's bytes (staging copies content exactly), and every checksum it can
record is 64 characters drawn from the lowercase hex alphabet. -/
theorem claim_C6 (srcDir ver versionDir : String) (entries : List DirEntry) :
    ((collectAndRenameZips srcDir entries ver).map (buildLinks versionDir) =
        if selectZips entries = [] then .error ("no .zip files found in " ++ srcDir)
        else .ok ((selectZips entries).map
          (fun de =>
            ⟨pathJoin versionDir (stagedName de ver),
             String.mk (hexEncodeBytes (sha256Bytes de.content))⟩))) ∧
      ∀ content : List Nat, (computeChecksum content).length = 64 ∧
        ∀ c ∈ (computeChecksum content).data, c ∈ "0123456789abcdef".data := by
  constructor
  · rw [collectAndRenameZips_eq]
    by_cases h : selectZips entries = []
    · simp [h, Except.map]
    · simp only [h, if_false, Except.map, buildLinks, List.map_map]
      refine congrArg Except.ok (List.map_congr_left ?_)
      intro a _
      exact rfl
  · intro content
    constructor
    · show (hexEncodeBytes (sha256Bytes content)).length = 64
      rw [hexEncodeBytes_length, sha256Bytes_length]
    · exact hexEncodeBytes_mem (sha256Bytes content)

/-! ### Dry-run behaviour: C2 -/

/-- C2 counterexample: with dry mode enabled (and the default host,
user, remote directory and manifest name), the remote directory-creation
request is still issued — it is a remote operation occurring in the dry
trace, contradicting the claim that no remote operation is issued. -/
theorem claim_C2_counterexample :
    Event.remoteMkdir "host.ext" "user"
        (remoteVersionDir "/home/user/www/public_html" "0.0.1") ∈
      mainTailEvents true "host.ext" "user" "/home/user/www/public_html"
        "relayClient.json" "0.0.1" [] ⟨"0.0.1", 0, []⟩ ["client-0.0.1.zip"] ∧
      isRemoteEvent (Event.remoteMkdir "host.ext" "user"
        (remoteVersionDir "/home/user/www/public_html" "0.0.1")) = true := by
  constructor
  · simp [mainTailEvents]
  · rfl

/-- C2 (amended): in dry mode the pipeline tail still updates the
manifest with the upserted entry and persists it locally, and skips the
artifact transfers, the manifest transfer and the alias updates — but it
does issue the remote directory-creation request, which sits outside the
dry-run guard: the dry trace is exactly the local manifest write
followed by the remote mkdir. -/
theorem claim_C2 (hostPort user remoteDir jsonName newVersion : String)
    (entries : List Entry) (newEntry : Entry) (files : List String) :
    mainTailEvents true hostPort user remoteDir jsonName newVersion entries newEntry files =
      [.writeManifest jsonName (upsertEntry entries newEntry),
       .remoteMkdir hostPort user (remoteVersionDir remoteDir newVersion)] := rfl

/-! ### Explicit version resolution: C3 -/

/-- C3 counterexample: the explicit version string `"1.2"` (missing
patch component) does not make the operation fail — the lenient parser
zero-fills it and resolution returns the canonicalized `"1.2.0"`. -/
theorem claim_C3_counterexample :
    pickNewVersionExplicit "1.2" = some "1.2.0" ∧
      pickNewVersionExplicit "1.2" ≠ none := by
  constructor
  · rfl
  · intro h
    cases h.symm.trans (rfl : pickNewVersionExplicit "1.2" = some "1.2.0")

/-- C3 (amended): explicit mode fails exactly when the lenient semver
parser rejects the supplied string; strings missing minor or patch
components are accepted and zero-filled (so `"1.2"` resolves to
`"1.2.0"` rather than failing), and any accepted string is used in its
parsed, canonicalized form. -/
theorem claim_C3 :
    (∀ s, pickNewVersionExplicit s = none ↔ NewVersion s = none) ∧
      pickNewVersionExplicit "1.2" = some "1.2.0" ∧
      pickNewVersionExplicit "not-a-version" = none ∧
      ∀ s v, NewVersion s = some v → pickNewVersionExplicit s = some (verString v) := by
  refine ⟨fun s => ?_, rfl, rfl, fun s v h => ?_⟩
  · simp [pickNewVersionExplicit]
  · simp [pickNewVersionExplicit, h]

/-- Witness for C3 at concrete inputs: `"abc"` is rejected by the
parser and by explicit resolution, while `"1.2.3"` resolves to its
canonical form. -/
theorem claim_C3_witness :
    pickNewVersionExplicit "abc" = none ∧
      pickNewVersionExplicit "1.2.3" = some (verString ⟨1, 2, 3, "", ""⟩) := by
  constructor
  · exact (claim_C3.1 "abc").mpr rfl
  · exact claim_C3.2.2.2 "1.2.3" ⟨1, 2, 3, "", ""⟩ rfl

/-! ### Comparator laws: derived facts and lexicographic composition -/

theorem CmpLawsOn.eq0_trans {P : α → Prop} {c : α → α → Int} (h : CmpLawsOn P c)
    {a b d : α} (ha : P a) (hb : P b) (hd : P d)
    (h1 : c a b = 0) (h2 : c b d = 0) : c a d = 0 := by
  have le1 : c a d ≤ 0 := h.trans_le a b d ha hb hd (by omega) (by omega)
  have e1 : c b a = -(c a b) := h.antisym a b ha hb
  have e2 : c d b = -(c b d) := h.antisym b d hb hd
  have le2 : c d a ≤ 0 := h.trans_le d b a hd hb ha (by omega) (by omega)
  have e3 : c d a = -(c a d) := h.antisym a d ha hd
  omega

theorem CmpLawsOn.lt_of_eq0_of_lt {P : α → Prop} {c : α → α → Int} (h : CmpLawsOn P c)
    {a b d : α} (ha : P a) (hb : P b) (hd : P d)
    (h1 : c a b = 0) (h2 : c b d < 0) : c a d < 0 := by
  have le1 : c a d ≤ 0 := h.trans_le a b d ha hb hd (by omega) (by omega)
  rcases lt_or_eq_of_le le1 with hlt | heq
  · exact hlt
  · exfalso
    have e3 : c d a = -(c a d) := h.antisym a d ha hd
    have hda : c d a = 0 := by omega
    have hdb : c d b = 0 := h.eq0_trans hd ha hb hda h1
    have e2 : c d b = -(c b d) := h.antisym b d hb hd
    omega

theorem CmpLawsOn.lt_of_lt_of_eq0 {P : α → Prop} {c : α → α → Int} (h : CmpLawsOn P c)
    {a b d : α} (ha : P a) (hb : P b) (hd : P d)
    (h1 : c a b < 0) (h2 : c b d = 0) : c a d < 0 := by
  have le1 : c a d ≤ 0 := h.trans_le a b d ha hb hd (by omega) (by omega)
  rcases lt_or_eq_of_le le1 with hlt | heq
  · exact hlt
  · exfalso
    have e3 : c d a = -(c a d) := h.antisym a d ha hd
    have hda : c d a = 0 := by omega
    have hdb : c d b < 0 := h.lt_of_eq0_of_lt hd ha hb hda h1
    have e2 : c d b = -(c b d) := h.antisym b d hb hd
    omega

theorem CmpLawsOn.lt_trans {P : α → Prop} {c : α → α → Int} (h : CmpLawsOn P c)
    {a b d : α} (ha : P a) (hb : P b) (hd : P d)
    (h1 : c a b < 0) (h2 : c b d < 0) : c a d < 0 := by
  have le1 : c a d ≤ 0 := h.trans_le a b d ha hb hd (by omega) (by omega)
  rcases lt_or_eq_of_le le1 with hlt | heq
  · exact hlt
  · exfalso
    have e3 : c d a = -(c a d) := h.antisym a d ha hd
    have hda : c d a = 0 := by omega
    have hdb : c d b < 0 := h.lt_of_eq0_of_lt hd ha hb hda h1
    have e2 : c d b = -(c b d) := h.antisym b d hb hd
    omega

theorem CmpLawsOn.lt_of_le_of_lt {P : α → Prop} {c : α → α → Int} (h : CmpLawsOn P c)
    {a b d : α} (ha : P a) (hb : P b) (hd : P d)
    (h1 : c a b ≤ 0) (h2 : c b d < 0) : c a d < 0 := by
  rcases lt_or_eq_of_le h1 with hlt | heq
  · exact h.lt_trans ha hb hd hlt h2
  · exact h.lt_of_eq0_of_lt ha hb hd heq h2

theorem CmpLawsOn.lt_of_lt_of_le {P : α → Prop} {c : α → α → Int} (h : CmpLawsOn P c)
    {a b d : α} (ha : P a) (hb : P b) (hd : P d)
    (h1 : c a b < 0) (h2 : c b d ≤ 0) : c a d < 0 := by
  rcases lt_or_eq_of_le h2 with hlt | heq
  · exact h.lt_trans ha hb hd h1 hlt
  · exact h.lt_of_lt_of_eq0 ha hb hd h1 heq

theorem lexComp_laws {P : α → Prop} {f g : α → α → Int}
    (hf : CmpLawsOn P f) (hg : CmpLawsOn P g) : CmpLawsOn P (lexComp f g) := by
  constructor
  · intro a ha
    simp [lexComp, hf.refl0 a ha, hg.refl0 a ha]
  · intro a b ha hb
    have h1 := hf.antisym a b ha hb
    have h2 := hg.antisym a b ha hb
    unfold lexComp
    by_cases h : f a b = 0
    · have hba : f b a = 0 := by omega
      simp [h, hba, h2]
    · have hba : f b a ≠ 0 := by omega
      simp [h, hba, h1]
  · intro a b d ha hb hd h1 h2
    unfold lexComp at h1 h2 ⊢
    by_cases hab : f a b = 0
    · by_cases hbd : f b d = 0
      · have had : f a d = 0 := hf.eq0_trans ha hb hd hab hbd
        simp only [hab, hbd, had, ne_eq, not_true_eq_false, if_false,
          not_false_eq_true] at h1 h2 ⊢
        exact hg.trans_le a b d ha hb hd h1 h2
      · have hlt : f b d < 0 := by
          simp only [ne_eq, hbd, not_false_eq_true, if_true] at h2
          omega
        have had : f a d < 0 := hf.lt_of_eq0_of_lt ha hb hd hab hlt
        have hne : f a d ≠ 0 := by omega
        simp only [ne_eq, hne, not_false_eq_true, if_true]
        omega
    · have hlt : f a b < 0 := by
        simp only [ne_eq, hab, not_false_eq_true, if_true] at h1
        omega
      by_cases hbd : f b d = 0
      · have had : f a d < 0 := hf.lt_of_lt_of_eq0 ha hb hd hlt hbd
        have hne : f a d ≠ 0 := by omega
        simp only [ne_eq, hne, not_false_eq_true, if_true]
        omega
      · have hlt2 : f b d < 0 := by
          simp only [ne_eq, hbd, not_false_eq_true, if_true] at h2
          omega
        have had : f a d < 0 := hf.lt_trans ha hb hd hlt hlt2
        have hne : f a d ≠ 0 := by omega
        simp only [ne_eq, hne, not_false_eq_true, if_true]
        omega

theorem compareSegment_antisym (a b : Nat) : compareSegment b a = -(compareSegment a b) := by
  unfold compareSegment
  split_ifs <;> omega

theorem compareSegment_le0 (a b : Nat) : compareSegment a b ≤ 0 ↔ a ≤ b := by
  unfold compareSegment
  split_ifs <;> omega

theorem majorComp_laws : CmpLawsOn PreOk majorComp := by
  constructor
  · intro a _
    simp [majorComp, compareSegment]
  · intro a b _ _
    exact compareSegment_antisym a.major b.major
  · intro a b d _ _ _ h1 h2
    unfold majorComp at h1 h2 ⊢
    rw [compareSegment_le0] at h1 h2 ⊢
    omega

theorem minorComp_laws : CmpLawsOn PreOk minorComp := by
  constructor
  · intro a _
    simp [minorComp, compareSegment]
  · intro a b _ _
    exact compareSegment_antisym a.minor b.minor
  · intro a b d _ _ _ h1 h2
    unfold minorComp at h1 h2 ⊢
    rw [compareSegment_le0] at h1 h2 ⊢
    omega

theorem patchComp_laws : CmpLawsOn PreOk patchComp := by
  constructor
  · intro a _
    simp [patchComp, compareSegment]
  · intro a b _ _
    exact compareSegment_antisym a.patch b.patch
  · intro a b d _ _ _ h1 h2
    unfold patchComp at h1 h2 ⊢
    rw [compareSegment_le0] at h1 h2 ⊢
    omega

/-! ### Character, digit-string and raw-string comparison facts -/

theorem char_eq_of_toNat_eq {a b : Char} (h : a.toNat = b.toNat) : a = b := by
  apply Char.eq_of_val_eq
  apply UInt32.eq_of_toBitVec_eq
  apply BitVec.eq_of_toNat_eq
  exact h

theorem lexCmpChars_refl (l : List Char) : lexCmpChars l l = 0 := by
  induction l with
  | nil => rfl
  | cons c cs ih => simp [lexCmpChars, ih]

theorem lexCmpChars_eq0 : ∀ {a b : List Char}, lexCmpChars a b = 0 → a = b := by
  intro a
  induction a with
  | nil =>
    intro b h
    cases b with
    | nil => rfl
    | cons x xs =>
      have he : lexCmpChars [] (x :: xs) = -1 := rfl
      omega
  | cons c cs ih =>
    intro b h
    cases b with
    | nil =>
      have he : lexCmpChars (c :: cs) [] = 1 := rfl
      omega
    | cons x xs =>
      have h' : (if c.toNat < x.toNat then (-1 : Int)
          else if x.toNat < c.toNat then 1 else lexCmpChars cs xs) = 0 := h
      by_cases h1 : c.toNat < x.toNat
      · rw [if_pos h1] at h'
        omega
      · rw [if_neg h1] at h'
        by_cases h2 : x.toNat < c.toNat
        · rw [if_pos h2] at h'
          omega
        · rw [if_neg h2] at h'
          have hc : c = x := char_eq_of_toNat_eq (by omega)
          rw [hc, ih h']

theorem lexCmpChars_antisym : ∀ (a b : List Char), lexCmpChars b a = -(lexCmpChars a b) := by
  intro a
  induction a with
  | nil =>
    intro b
    cases b <;> simp [lexCmpChars]
  | cons c cs ih =>
    intro b
    cases b with
    | nil => simp [lexCmpChars]
    | cons x xs =>
      unfold lexCmpChars
      split_ifs <;> first | omega | exact ih xs

theorem lexCmpChars_lt_trans :
    ∀ (a b d : List Char), lexCmpChars a b < 0 → lexCmpChars b d < 0 → lexCmpChars a d < 0 := by
  intro a
  induction a with
  | nil =>
    intro b d h1 h2
    cases b with
    | nil => exact absurd h1 (by simp [lexCmpChars])
    | cons y ys =>
      cases d with
      | nil => exact absurd h2 (by simp [lexCmpChars])
      | cons z zs => simp [lexCmpChars]
  | cons c cs ih =>
    intro b d h1 h2
    cases b with
    | nil => exact absurd h1 (by simp [lexCmpChars])
    | cons y ys =>
      cases d with
      | nil => exact absurd h2 (by simp [lexCmpChars])
      | cons z zs =>
        unfold lexCmpChars at h1 h2 ⊢
        split_ifs at h1 h2 ⊢ with hcy hyc hyz hzy hcz hzc <;>
          first
            | rfl
            | omega
            | exact ih ys zs h1 h2

theorem digitsToNatAux_eq (l : List Char) :
    ∀ acc, digitsToNatAux acc l = acc * 10 ^ l.length + digitsToNat l := by
  induction l with
  | nil =>
    intro acc
    have e1 : digitsToNatAux acc ([] : List Char) = acc := rfl
    have e2 : digitsToNat ([] : List Char) = 0 := rfl
    rw [e1, e2, List.length_nil]
    ring
  | cons c cs ih =>
    intro acc
    have h1 : digitsToNatAux acc (c :: cs) = digitsToNatAux (10 * acc + digitVal c) cs := rfl
    have h2 : digitsToNat (c :: cs) = digitsToNatAux (10 * 0 + digitVal c) cs := rfl
    rw [h1, h2, ih, ih (10 * 0 + digitVal c), List.length_cons]
    ring

theorem digitsToNat_cons (c : Char) (cs : List Char) :
    digitsToNat (c :: cs) = digitVal c * 10 ^ cs.length + digitsToNat cs := by
  have h2 : digitsToNat (c :: cs) = digitsToNatAux (10 * 0 + digitVal c) cs := rfl
  rw [h2, digitsToNatAux_eq]
  ring

theorem digit_bounds {c : Char} (h : c.isDigit = true) : 48 ≤ c.toNat ∧ c.toNat ≤ 57 := by
  simp [Char.isDigit] at h
  exact ⟨h.1, h.2⟩

theorem digitVal_le9 {c : Char} (h : c.isDigit = true) : digitVal c ≤ 9 := by
  have hb := digit_bounds h
  unfold digitVal
  omega

theorem digitVal_toNat {c : Char} (h : c.isDigit = true) : c.toNat = digitVal c + 48 := by
  have hb := digit_bounds h
  unfold digitVal
  omega

theorem digitsToNat_lt {l : List Char} (h : l.all Char.isDigit = true) :
    digitsToNat l < 10 ^ l.length := by
  induction l with
  | nil =>
    have e2 : digitsToNat ([] : List Char) = 0 := rfl
    rw [e2, List.length_nil]
    norm_num
  | cons c cs ih =>
    rw [List.all_cons, Bool.and_eq_true] at h
    rw [digitsToNat_cons]
    have h9 := digitVal_le9 h.1
    have hrec := ih h.2
    have : 10 ^ (c :: cs).length = 10 * 10 ^ cs.length := by
      rw [List.length_cons]
      ring
    rw [this]
    nlinarith

theorem digitsToNat_ge {c : Char} {cs : List Char}
    (hall : (c :: cs).all Char.isDigit = true) (hc : c ≠ '0') :
    10 ^ cs.length ≤ digitsToNat (c :: cs) := by
  rw [List.all_cons, Bool.and_eq_true] at hall
  rw [digitsToNat_cons]
  have h1 : 1 ≤ digitVal c := by
    have := digitVal_toNat hall.1
    have hne : c.toNat ≠ 48 := by
      intro h
      exact hc (char_eq_of_toNat_eq (h.trans (by decide : ('0' : Char).toNat = 48).symm))
    omega
  nlinarith [Nat.pos_pow_of_pos cs.length (by omega : 0 < 10)]

theorem digits_inj_of_length_eq :
    ∀ {a b : List Char}, a.length = b.length → a.all Char.isDigit = true →
      b.all Char.isDigit = true → digitsToNat a = digitsToNat b → a = b := by
  intro a
  induction a with
  | nil =>
    intro b hlen _ _ _
    exact (List.length_eq_zero.mp hlen.symm).symm ▸ rfl
  | cons c cs ih =>
    intro b hlen ha hb hv
    cases b with
    | nil => exact absurd hlen (by simp)
    | cons x xs =>
      rw [List.all_cons, Bool.and_eq_true] at ha hb
      rw [List.length_cons, List.length_cons, Nat.add_right_cancel_iff] at hlen
      rw [digitsToNat_cons, digitsToNat_cons, hlen] at hv
      have hca := digitsToNat_lt ha.2
      have hcb := digitsToNat_lt hb.2
      rw [hlen] at hca
      have hpos : 0 < 10 ^ xs.length := Nat.pos_pow_of_pos _ (by omega)
      have hdc : digitVal c = digitVal x := by
        have e1 : (digitVal c * 10 ^ xs.length + digitsToNat cs) / 10 ^ xs.length = digitVal c := by
          rw [Nat.mul_comm, Nat.mul_add_div hpos, Nat.div_eq_of_lt hca, Nat.add_zero]
        have e2 : (digitVal x * 10 ^ xs.length + digitsToNat xs) / 10 ^ xs.length = digitVal x := by
          rw [Nat.mul_comm, Nat.mul_add_div hpos, Nat.div_eq_of_lt hcb, Nat.add_zero]
        rw [← e1, ← e2, hv]
      have hcx : c = x := by
        apply char_eq_of_toNat_eq
        rw [digitVal_toNat ha.1, digitVal_toNat hb.1, hdc]
      have htail : digitsToNat cs = digitsToNat xs := by
        have := hv
        rw [hdc] at this
        omega
      rw [hcx, ih hlen ha.2 hb.2 htail]

/-! ### Pre-release identifier comparison: total preorder on valid parts -/

theorem parseUint64_some {p : List Char} {n : Nat} (h : parseUint64 p = some n) :
    p ≠ [] ∧ p.all Char.isDigit = true ∧ digitsToNat p = n := by
  unfold parseUint64 at h
  split_ifs at h with hcond
  exact ⟨hcond.1, hcond.2.1, Option.some_inj.mp h⟩

theorem goodPart_no_leading_zero {x : Char} {xs : List Char}
    (hg : goodPart ('0' :: x :: xs)) :
    ('0' :: x :: xs).all Char.isDigit = true → False := by
  intro hd
  have hv := hg.2.2
  unfold validPrePart at hv
  rw [if_pos hd] at hv
  cases hv

theorem goodPart_digits_inj {p q : List Char}
    (hp : goodPart p) (hq : goodPart q)
    (hdp : p.all Char.isDigit = true) (hdq : q.all Char.isDigit = true)
    (hv : digitsToNat p = digitsToNat q) : p = q := by
  rcases Nat.lt_trichotomy p.length q.length with hlt | heq | hgt
  · exfalso
    cases q with
    | nil => simp at hlt
    | cons x xs =>
      cases xs with
      | nil =>
        simp only [List.length_cons, List.length_nil] at hlt
        have hl0 : p.length = 0 := by omega
        exact hp.1 (List.length_eq_zero.mp hl0)
      | cons y ys =>
        have hx : x ≠ '0' := by
          intro hx0
          exact goodPart_no_leading_zero (hx0 ▸ hq) (hx0 ▸ hdq)
        have hge := digitsToNat_ge hdq hx
        have hltv := digitsToNat_lt hdp
        have hpow : 10 ^ p.length ≤ 10 ^ (y :: ys).length := by
          apply Nat.pow_le_pow_right (by omega)
          simp only [List.length_cons] at hlt ⊢
          omega
        omega
  · exact digits_inj_of_length_eq heq hdp hdq hv
  · exfalso
    cases p with
    | nil => simp at hgt
    | cons x xs =>
      cases xs with
      | nil =>
        simp only [List.length_cons, List.length_nil] at hgt
        have hl0 : q.length = 0 := by omega
        exact hq.1 (List.length_eq_zero.mp hl0)
      | cons y ys =>
        have hx : x ≠ '0' := by
          intro hx0
          exact goodPart_no_leading_zero (hx0 ▸ hp) (hx0 ▸ hdp)
        have hge := digitsToNat_ge hdp hx
        have hltv := digitsToNat_lt hdq
        have hpow : 10 ^ q.length ≤ 10 ^ (y :: ys).length := by
          apply Nat.pow_le_pow_right (by omega)
          simp only [List.length_cons] at hgt ⊢
          omega
        omega

theorem parseUint64_inj {p q : List Char} {n : Nat}
    (hp : goodPart p) (hq : goodPart q)
    (h1 : parseUint64 p = some n) (h2 : parseUint64 q = some n) : p = q := by
  obtain ⟨_, hdp, hvp⟩ := parseUint64_some h1
  obtain ⟨_, hdq, hvq⟩ := parseUint64_some h2
  exact goodPart_digits_inj hp hq hdp hdq (hvp.trans hvq.symm)

theorem comparePrePart_refl (p : List Char) : comparePrePart p p = 0 := by
  unfold comparePrePart
  simp

theorem comparePrePart_eq0 {p q : List Char} (h : comparePrePart p q = 0) : p = q := by
  by_contra hne
  unfold comparePrePart at h
  rw [if_neg hne] at h
  by_cases hp : p = []
  · rw [if_pos hp] at h
    have hq : q ≠ [] := fun hq2 => hne (hp.trans hq2.symm)
    rw [if_pos hq] at h
    omega
  · rw [if_neg hp] at h
    by_cases hq : q = []
    · rw [if_pos hq] at h
      omega
    · rw [if_neg hq] at h
      rcases hp1 : parseUint64 p with _ | np <;> rcases hq1 : parseUint64 q with _ | nq <;>
          simp only [hp1, hq1] at h
      · split_ifs at h <;> omega
      · omega
      · omega
      · split_ifs at h <;> omega

theorem comparePrePart_antisym {p q : List Char} (hp : PadOk p) (hq : PadOk q) :
    comparePrePart q p = -(comparePrePart p q) := by
  by_cases hpq : p = q
  · subst hpq
    rw [comparePrePart_refl]
    omega
  · have hqp : q ≠ p := fun h => hpq h.symm
    by_cases hp0 : p = []
    · have hq0 : q ≠ [] := fun h => hpq (hp0.trans h.symm)
      have e1 : comparePrePart p q = -1 := by
        unfold comparePrePart
        rw [if_neg hpq, if_pos hp0, if_pos hq0]
      have e2 : comparePrePart q p = 1 := by
        unfold comparePrePart
        rw [if_neg hqp, if_neg hq0, if_pos hp0]
      rw [e1, e2]
      omega
    · by_cases hq0 : q = []
      · have e1 : comparePrePart p q = 1 := by
          unfold comparePrePart
          rw [if_neg hpq, if_neg hp0, if_pos hq0]
        have e2 : comparePrePart q p = -1 := by
          unfold comparePrePart
          rw [if_neg hqp, if_pos hq0, if_pos hp0]
        rw [e1, e2]
      · have hgp : goodPart p := hp.resolve_left hp0
        have hgq : goodPart q := hq.resolve_left hq0
        have e1 : comparePrePart p q =
            (match parseUint64 p, parseUint64 q with
             | none, none => if lexCmpChars p q > 0 then (1 : Int) else -1
             | some _, none => -1
             | none, some _ => 1
             | some si, some oi => if si > oi then 1 else -1) := by
          unfold comparePrePart
          rw [if_neg hpq, if_neg hp0, if_neg hq0]
        have e2 : comparePrePart q p =
            (match parseUint64 q, parseUint64 p with
             | none, none => if lexCmpChars q p > 0 then (1 : Int) else -1
             | some _, none => -1
             | none, some _ => 1
             | some si, some oi => if si > oi then 1 else -1) := by
          unfold comparePrePart
          rw [if_neg hqp, if_neg hq0, if_neg hp0]
        rw [e1, e2]
        rcases hp1 : parseUint64 p with _ | np <;> rcases hq1 : parseUint64 q with _ | nq <;>
            simp only [hp1, hq1]
        · have ha := lexCmpChars_antisym p q
          have hne0 : lexCmpChars p q ≠ 0 := fun h0 => hpq (lexCmpChars_eq0 h0)
          split_ifs <;> omega
        · rfl
        · have hne : np ≠ nq := by
            intro he
            exact hpq (parseUint64_inj hgp hgq hp1 (he ▸ hq1))
          split_ifs <;> omega

theorem comparePrePart_lt_trans {p q r : List Char}
    (hp : PadOk p) (hq : PadOk q) (hr : PadOk r)
    (h1 : comparePrePart p q < 0) (h2 : comparePrePart q r < 0) :
    comparePrePart p r < 0 := by
  have hpq : p ≠ q := by
    intro h
    rw [h, comparePrePart_refl] at h1
    omega
  have hqr : q ≠ r := by
    intro h
    rw [h, comparePrePart_refl] at h2
    omega
  have hr0 : r ≠ [] := by
    intro hr0
    unfold comparePrePart at h2
    rw [if_neg hqr] at h2
    by_cases hq0 : q = []
    · rw [if_pos hq0, if_neg (by rw [hr0]; exact fun h => h rfl)] at h2
      omega
    · rw [if_neg hq0, if_pos hr0] at h2
      omega
  by_cases hp0 : p = []
  · have hpr : p ≠ r := fun h => hr0 (h ▸ hp0)
    unfold comparePrePart
    rw [if_neg hpr, if_pos hp0, if_pos hr0]
    omega
  · have hq0 : q ≠ [] := by
      intro hq0
      unfold comparePrePart at h1
      rw [if_neg hpq, if_neg hp0, if_pos hq0] at h1
      omega
    have hgp : goodPart p := hp.resolve_left hp0
    have hgq : goodPart q := hq.resolve_left hq0
    have hgr : goodPart r := hr.resolve_left hr0
    unfold comparePrePart at h1 h2 ⊢
    rw [if_neg hpq, if_neg hp0, if_neg hq0] at h1
    rw [if_neg hqr, if_neg hq0, if_neg hr0] at h2
    rcases hp1 : parseUint64 p with _ | np <;> rcases hq1 : parseUint64 q with _ | nq <;>
        rcases hr1 : parseUint64 r with _ | nr <;>
        simp only [hp1, hq1, hr1] at h1 h2 ⊢
    · -- all strings: lexicographic transitivity
      have hl1 : lexCmpChars p q < 0 := by
        have hne0 : lexCmpChars p q ≠ 0 := fun h0 => hpq (lexCmpChars_eq0 h0)
        split_ifs at h1 <;> omega
      have hl2 : lexCmpChars q r < 0 := by
        have hne0 : lexCmpChars q r ≠ 0 := fun h0 => hqr (lexCmpChars_eq0 h0)
        split_ifs at h2 <;> omega
      have hl3 := lexCmpChars_lt_trans p q r hl1 hl2
      have hpr : p ≠ r := by
        intro h
        rw [h, lexCmpChars_refl] at hl3
        omega
      rw [if_neg hpr, if_neg hp0, if_neg hr0]
      split_ifs <;> omega
    · -- p string, q string, r numeric: impossible, q below r fails
      omega
    · -- p string, q numeric: impossible, p below q fails
      omega
    · omega
    · -- p numeric, q string, r string: p below r by class
      have hpr : p ≠ r := by
        intro h
        rw [h, hr1] at hp1
        cases hp1
      rw [if_neg hpr, if_neg hp0, if_neg hr0]
      omega
    · omega
    · -- p numeric, q numeric, r string
      have hpr : p ≠ r := by
        intro h
        rw [h, hr1] at hp1
        cases hp1
      rw [if_neg hpr, if_neg hp0, if_neg hr0]
      omega
    · -- all numeric
      have hn1 : np < nq := by
        have hne : np ≠ nq := by
          intro he
          exact hpq (parseUint64_inj hgp hgq hp1 (he ▸ hq1))
        split_ifs at h1 <;> omega
      have hn2 : nq < nr := by
        have hne : nq ≠ nr := by
          intro he
          exact hqr (parseUint64_inj hgq hgr hq1 (he ▸ hr1))
        split_ifs at h2 <;> omega
      have hpr : p ≠ r := by
        intro h
        rw [h, hr1] at hp1
        have : nr = np := Option.some_inj.mp hp1
        omega
      rw [if_neg hpr, if_neg hp0, if_neg hr0]
      split_ifs <;> omega

/-! ### Identifier-list and version comparison laws -/

theorem comparePrePart_nil_lt {o : List Char} (ho : o ≠ []) : comparePrePart [] o = -1 := by
  unfold comparePrePart
  rw [if_neg (fun h => ho h.symm), if_pos rfl, if_pos ho]

theorem comparePrePart_gt_nil {s : List Char} (hs : s ≠ []) : comparePrePart s [] = 1 := by
  unfold comparePrePart
  rw [if_neg hs, if_neg hs, if_pos rfl]

theorem cmpPartLists_cons_cons (s o : List Char) (ss os : List (List Char)) :
    cmpPartLists (s :: ss) (o :: os) =
      if comparePrePart s o ≠ 0 then comparePrePart s o else cmpPartLists ss os := rfl

theorem cmpPartLists_refl : ∀ (ss : List (List Char)), cmpPartLists ss ss = 0 := by
  intro ss
  induction ss with
  | nil => rfl
  | cons s rest ih =>
    rw [cmpPartLists_cons_cons, comparePrePart_refl]
    simp [ih]

theorem cmpPartLists_eq0 :
    ∀ {ss os : List (List Char)}, (∀ p ∈ ss, goodPart p) → (∀ p ∈ os, goodPart p) →
      cmpPartLists ss os = 0 → ss = os := by
  intro ss
  induction ss with
  | nil =>
    intro os _ ho h
    cases os with
    | nil => rfl
    | cons o os2 =>
      have hne : o ≠ [] := (ho o (List.mem_cons_self o os2)).1
      have e : cmpPartLists [] (o :: os2) =
          (if comparePrePart [] o ≠ 0 then comparePrePart [] o else cmpPartLists [] os2) := rfl
      rw [e, comparePrePart_nil_lt hne] at h
      simp at h
  | cons s rest ih =>
    intro os hs ho h
    cases os with
    | nil =>
      have hne : s ≠ [] := (hs s (List.mem_cons_self s rest)).1
      have e : cmpPartLists (s :: rest) [] =
          (if comparePrePart s [] ≠ 0 then comparePrePart s [] else cmpPartLists rest []) := rfl
      rw [e, comparePrePart_gt_nil hne] at h
      simp at h
    | cons o os2 =>
      rw [cmpPartLists_cons_cons] at h
      by_cases hd : comparePrePart s o = 0
      · have hso : s = o := comparePrePart_eq0 hd
        rw [if_neg (by rw [hd]; exact fun hc => hc rfl)] at h
        have htail := ih (fun p hp => hs p (List.mem_cons_of_mem s hp))
          (fun p hp => ho p (List.mem_cons_of_mem o hp)) h
        rw [hso, htail]
      · rw [if_pos hd] at h
        exact absurd h hd

theorem cmpPartLists_antisym :
    ∀ {ss os : List (List Char)}, (∀ p ∈ ss, goodPart p) → (∀ p ∈ os, goodPart p) →
      cmpPartLists os ss = -(cmpPartLists ss os) := by
  intro ss
  induction ss with
  | nil =>
    intro os _ ho
    cases os with
    | nil => rfl
    | cons o os2 =>
      have hne : o ≠ [] := (ho o (List.mem_cons_self o os2)).1
      have e1 : cmpPartLists (o :: os2) [] =
          (if comparePrePart o [] ≠ 0 then comparePrePart o [] else cmpPartLists os2 []) := rfl
      have e2 : cmpPartLists [] (o :: os2) =
          (if comparePrePart [] o ≠ 0 then comparePrePart [] o else cmpPartLists [] os2) := rfl
      rw [e1, e2, comparePrePart_gt_nil hne, comparePrePart_nil_lt hne]
      simp
  | cons s rest ih =>
    intro os hs ho
    cases os with
    | nil =>
      have hne : s ≠ [] := (hs s (List.mem_cons_self s rest)).1
      have e1 : cmpPartLists [] (s :: rest) =
          (if comparePrePart [] s ≠ 0 then comparePrePart [] s else cmpPartLists [] rest) := rfl
      have e2 : cmpPartLists (s :: rest) [] =
          (if comparePrePart s [] ≠ 0 then comparePrePart s [] else cmpPartLists rest []) := rfl
      rw [e1, e2, comparePrePart_gt_nil hne, comparePrePart_nil_lt hne]
      simp
    | cons o os2 =>
      have hgs : goodPart s := hs s (List.mem_cons_self s rest)
      have hgo : goodPart o := ho o (List.mem_cons_self o os2)
      rw [cmpPartLists_cons_cons, cmpPartLists_cons_cons,
        comparePrePart_antisym (Or.inr hgs) (Or.inr hgo)]
      by_cases hd : comparePrePart s o = 0
      · rw [hd]
        simp only [neg_zero, ne_eq, not_true_eq_false, if_false]
        exact ih (fun p hp => hs p (List.mem_cons_of_mem s hp))
          (fun p hp => ho p (List.mem_cons_of_mem o hp))
      · rw [if_pos (by omega : ¬-comparePrePart s o = 0), if_pos hd]

theorem cmpPartLists_lt_trans :
    ∀ {ss os ts : List (List Char)},
      (∀ p ∈ ss, goodPart p) → (∀ p ∈ os, goodPart p) → (∀ p ∈ ts, goodPart p) →
      cmpPartLists ss os < 0 → cmpPartLists os ts < 0 → cmpPartLists ss ts < 0 := by
  intro ss
  induction ss with
  | nil =>
    intro os ts _ ho ht h1 h2
    cases ts with
    | nil =>
      exfalso
      cases os with
      | nil => exact absurd h2 (by rw [show cmpPartLists [] [] = 0 from rfl]; omega)
      | cons o os2 =>
        have hne : o ≠ [] := (ho o (List.mem_cons_self o os2)).1
        have e : cmpPartLists (o :: os2) [] =
            (if comparePrePart o [] ≠ 0 then comparePrePart o [] else cmpPartLists os2 []) := rfl
        rw [e, comparePrePart_gt_nil hne] at h2
        simp at h2
    | cons t ts2 =>
      have hne : t ≠ [] := (ht t (List.mem_cons_self t ts2)).1
      have e : cmpPartLists [] (t :: ts2) =
          (if comparePrePart [] t ≠ 0 then comparePrePart [] t else cmpPartLists [] ts2) := rfl
      rw [e, comparePrePart_nil_lt hne]
      simp
  | cons s rest ih =>
    intro os ts hs ho ht h1 h2
    cases os with
    | nil =>
      exfalso
      have hne : s ≠ [] := (hs s (List.mem_cons_self s rest)).1
      have e : cmpPartLists (s :: rest) [] =
          (if comparePrePart s [] ≠ 0 then comparePrePart s [] else cmpPartLists rest []) := rfl
      rw [e, comparePrePart_gt_nil hne] at h1
      simp at h1
    | cons o os2 =>
      cases ts with
      | nil =>
        exfalso
        have hne : o ≠ [] := (ho o (List.mem_cons_self o os2)).1
        have e : cmpPartLists (o :: os2) [] =
            (if comparePrePart o [] ≠ 0 then comparePrePart o [] else cmpPartLists os2 []) := rfl
        rw [e, comparePrePart_gt_nil hne] at h2
        simp at h2
      | cons t ts2 =>
        have hgs : goodPart s := hs s (List.mem_cons_self s rest)
        have hgo : goodPart o := ho o (List.mem_cons_self o os2)
        have hgt2 : goodPart t := ht t (List.mem_cons_self t ts2)
        have hs2 := fun p hp => hs p (List.mem_cons_of_mem s hp)
        have ho2 := fun p hp => ho p (List.mem_cons_of_mem o hp)
        have ht2 := fun p hp => ht p (List.mem_cons_of_mem t hp)
        rw [cmpPartLists_cons_cons] at h1 h2 ⊢
        by_cases hd1 : comparePrePart s o = 0
        · have hso : s = o := comparePrePart_eq0 hd1
          rw [if_neg (by omega)] at h1
          by_cases hd2 : comparePrePart o t = 0
          · have hot : o = t := comparePrePart_eq0 hd2
            have hst : comparePrePart s t = 0 := by rw [hso, hot, comparePrePart_refl]
            rw [if_neg (by omega)] at h2
            rw [if_neg (by omega)]
            exact ih hs2 ho2 ht2 h1 h2
          · rw [if_pos hd2] at h2
            have hst : comparePrePart s t < 0 := by rw [hso]; exact h2
            rw [if_pos (by omega)]
            exact hst
        · rw [if_pos hd1] at h1
          by_cases hd2 : comparePrePart o t = 0
          · have hot : o = t := comparePrePart_eq0 hd2
            have hst : comparePrePart s t < 0 := by rw [← hot]; exact h1
            rw [if_pos (by omega)]
            exact hst
          · rw [if_pos hd2] at h2
            have hst : comparePrePart s t < 0 :=
              comparePrePart_lt_trans (Or.inr hgs) (Or.inr hgo) (Or.inr hgt2) h1 h2
            rw [if_pos (by omega)]
            exact hst

theorem cmpPartLists_trans_le
    {ss os ts : List (List Char)}
    (hs : ∀ p ∈ ss, goodPart p) (ho : ∀ p ∈ os, goodPart p) (ht : ∀ p ∈ ts, goodPart p)
    (h1 : cmpPartLists ss os ≤ 0) (h2 : cmpPartLists os ts ≤ 0) :
    cmpPartLists ss ts ≤ 0 := by
  rcases lt_or_eq_of_le h1 with hlt1 | heq1
  · rcases lt_or_eq_of_le h2 with hlt2 | heq2
    · exact le_of_lt (cmpPartLists_lt_trans hs ho ht hlt1 hlt2)
    · have : os = ts := cmpPartLists_eq0 ho ht heq2
      rw [← this]
      omega
  · have : ss = os := cmpPartLists_eq0 hs ho heq1
    rw [this]
    exact h2

theorem PreOk_goods {v : GoVersion} (h : PreOk v) (hne : v.pre ≠ "") :
    ∀ p ∈ splitOnDot v.pre.data, goodPart p :=
  h.resolve_left hne

theorem preComp_laws : CmpLawsOn PreOk preComp := by
  constructor
  · intro a ha
    by_cases h : a.pre = ""
    · simp [preComp, h]
    · unfold preComp
      rw [if_neg (by tauto), if_neg h, if_neg h]
      exact cmpPartLists_refl _
  · intro a b ha hb
    by_cases h1 : a.pre = "" <;> by_cases h2 : b.pre = ""
    · simp [preComp, h1, h2]
    · simp [preComp, h1, h2]
    · simp [preComp, h1, h2]
    · unfold preComp
      rw [if_neg (by tauto), if_neg h1, if_neg h2,
        if_neg (by tauto), if_neg h2, if_neg h1]
      exact cmpPartLists_antisym (PreOk_goods ha h1) (PreOk_goods hb h2)
  · intro a b d ha hb hd h1 h2
    by_cases hA : a.pre = ""
    · by_cases hB : b.pre = ""
      · by_cases hD : d.pre = ""
        · simp [preComp, hA, hB, hD]
        · exfalso
          simp [preComp, hB, hD] at h2
      · exfalso
        simp [preComp, hA, hB] at h1
    · by_cases hD : d.pre = ""
      · simp [preComp, hA, hD]
      · by_cases hB : b.pre = ""
        · exfalso
          simp [preComp, hB, hD] at h2
        · unfold preComp at h1 h2 ⊢
          rw [if_neg (by tauto), if_neg hA, if_neg hB] at h1
          rw [if_neg (by tauto), if_neg hB, if_neg hD] at h2
          rw [if_neg (by tauto), if_neg hA, if_neg hD]
          exact cmpPartLists_trans_le (PreOk_goods ha hA) (PreOk_goods hb hB)
            (PreOk_goods hd hD) h1 h2

theorem compareVer_eq :
    compareVer = lexComp majorComp (lexComp minorComp (lexComp patchComp preComp)) := rfl

theorem compareVer_laws : CmpLawsOn PreOk compareVer := by
  rw [compareVer_eq]
  exact lexComp_laws majorComp_laws
    (lexComp_laws minorComp_laws (lexComp_laws patchComp_laws preComp_laws))

/-! ### The parser emits only valid pre-releases -/

theorem allowedChar_ne_dot {c : Char} (h : isAllowedChar c = true) : c ≠ '.' := by
  intro hc
  subst hc
  exact absurd h (by decide)

theorem parseDottedAux_parts :
    ∀ (l cur : List Char) (acc parts : List (List Char)) (rem : List Char),
      parseDottedAux l cur acc = some (parts, rem) →
      (∀ p ∈ acc, p ≠ [] ∧ p.all isAllowedChar = true) →
      cur.all isAllowedChar = true →
      ∀ p ∈ parts, p ≠ [] ∧ p.all isAllowedChar = true := by
  intro l
  induction l with
  | nil =>
    intro cur acc parts rem h hacc hcur
    unfold parseDottedAux at h
    split_ifs at h with hc
    have hpair := Option.some_inj.mp h
    have hparts : (cur.reverse :: acc).reverse = parts := congrArg Prod.fst hpair
    intro p hp
    rw [← hparts, List.mem_reverse, List.mem_cons] at hp
    rcases hp with hp | hp
    · subst hp
      refine ⟨fun hnil => hc (List.reverse_eq_nil_iff.mp hnil), ?_⟩
      rw [List.all_reverse]
      exact hcur
    · exact hacc p hp
  | cons c rest ih =>
    intro cur acc parts rem h hacc hcur
    unfold parseDottedAux at h
    split_ifs at h with h1 h2 h3 h4
    · exact ih (c :: cur) acc parts rem h hacc (by simp [List.all_cons, h1, hcur])
    · refine ih [] (cur.reverse :: acc) parts rem h ?_ rfl
      intro p hp
      rw [List.mem_cons] at hp
      rcases hp with hp | hp
      · subst hp
        refine ⟨fun hnil => h3 (List.reverse_eq_nil_iff.mp hnil), ?_⟩
        rw [List.all_reverse]
        exact hcur
      · exact hacc p hp
    · have hpair := Option.some_inj.mp h
      have hparts : (cur.reverse :: acc).reverse = parts := congrArg Prod.fst hpair
      intro p hp
      rw [← hparts, List.mem_reverse, List.mem_cons] at hp
      rcases hp with hp | hp
      · subst hp
        refine ⟨fun hnil => h4 (List.reverse_eq_nil_iff.mp hnil), ?_⟩
        rw [List.all_reverse]
        exact hcur
      · exact hacc p hp

theorem parsePreSection_parts {l : List Char} {parts : List (List Char)} {rem : List Char}
    (h : parsePreSection l = some (parts, rem)) :
    ∀ p ∈ parts, p ≠ [] ∧ p.all isAllowedChar = true := by
  unfold parsePreSection at h
  split at h
  · unfold parseDotted at h
    exact parseDottedAux_parts _ _ _ _ _ h (fun p hp => absurd hp (List.not_mem_nil p)) rfl
  · have hpair := Option.some_inj.mp h
    have hparts : ([] : List (List Char)) = parts := congrArg Prod.fst hpair
    intro p hp
    rw [← hparts] at hp
    exact absurd hp (List.not_mem_nil p)

theorem splitOnDot_no_dot : ∀ {l : List Char}, (∀ c ∈ l, c ≠ '.') → splitOnDot l = [l] := by
  intro l
  induction l with
  | nil => intro _; rfl
  | cons c rest ih =>
    intro h
    have hc : c ≠ '.' := h c (List.mem_cons_self c rest)
    have e : splitOnDot (c :: rest) =
        (if c = '.' then [] :: splitOnDot rest
         else
           match splitOnDot rest with
           | [] => [[c]]
           | p :: ps => (c :: p) :: ps) := rfl
    rw [e, if_neg hc, ih (fun x hx => h x (List.mem_cons_of_mem c hx))]

theorem splitOnDot_append_dot :
    ∀ {p t : List Char}, (∀ c ∈ p, c ≠ '.') →
      splitOnDot (p ++ '.' :: t) = p :: splitOnDot t := by
  intro p
  induction p with
  | nil =>
    intro t _
    have e : splitOnDot ('.' :: t) =
        (if '.' = '.' then [] :: splitOnDot t
         else
           match splitOnDot t with
           | [] => [['.']]
           | q :: qs => ('.' :: q) :: qs) := rfl
    rw [List.nil_append, e, if_pos rfl]
  | cons c rest ih =>
    intro t h
    have hc : c ≠ '.' := h c (List.mem_cons_self c rest)
    have e : splitOnDot (c :: (rest ++ '.' :: t)) =
        (if c = '.' then [] :: splitOnDot (rest ++ '.' :: t)
         else
           match splitOnDot (rest ++ '.' :: t) with
           | [] => [[c]]
           | q :: qs => (c :: q) :: qs) := rfl
    rw [List.cons_append, e, if_neg hc, ih (fun x hx => h x (List.mem_cons_of_mem c hx))]

theorem splitOnDot_joinDots :
    ∀ {parts : List (List Char)}, parts ≠ [] →
      (∀ p ∈ parts, ∀ c ∈ p, c ≠ '.') →
      splitOnDot (joinDots parts) = parts := by
  intro parts
  induction parts with
  | nil => intro h _; exact absurd rfl h
  | cons p rest ih =>
    intro _ hgood
    cases rest with
    | nil => exact splitOnDot_no_dot (hgood p (List.mem_cons_self p []))
    | cons q qs =>
      have e : joinDots (p :: q :: qs) = p ++ '.' :: joinDots (q :: qs) := rfl
      rw [e, splitOnDot_append_dot (hgood p (List.mem_cons_self p (q :: qs))),
        ih (List.cons_ne_nil q qs) (fun x hx => hgood x (List.mem_cons_of_mem p hx))]

theorem joinDots_ne_nil {p : List Char} {rest : List (List Char)} (hp : p ≠ []) :
    joinDots (p :: rest) ≠ [] := by
  cases rest with
  | nil => exact hp
  | cons q qs =>
    have e : joinDots (p :: q :: qs) = p ++ '.' :: joinDots (q :: qs) := rfl
    rw [e]
    simp

/-- Every version `NewVersion` returns has a valid pre-release: the
parser only emits identifier sequences that are nonempty, in-charset and
leading-zero-validated. -/
theorem NewVersion_PreOk {s : String} {v : GoVersion} (h : NewVersion s = some v) : PreOk v := by
  simp only [NewVersion] at h
  split_ifs at h with hmjr
  split at h
  · exact Option.noConfusion h
  · rename_i preParts l5 hpre
    split at h
    · exact Option.noConfusion h
    · rename_i metaParts l6 hmeta
      split at h
      · exact Option.noConfusion h
      · rename_i hl6
        split at h
        · rename_i mj mi pa hmj hmi hpa
          split at h
          · exact Option.noConfusion h
          · rename_i hval1
            split at h
            · exact Option.noConfusion h
            · rename_i hval2
              have hv := Option.some_inj.mp h
              subst hv
              cases hparts : preParts with
              | nil => exact Or.inl rfl
              | cons p rest =>
                right
                rw [hparts] at hval1 hpre
                have hgood := parsePreSection_parts hpre
                have hpne : p ≠ [] := (hgood p (List.mem_cons_self p rest)).1
                have hjne : joinDots (p :: rest) ≠ [] := joinDots_ne_nil hpne
                have hdotfree : ∀ q ∈ p :: rest, ∀ c ∈ q, c ≠ '.' := by
                  intro q hq c hc
                  exact allowedChar_ne_dot (List.all_eq_true.mp (hgood q hq).2 c hc)
                have hsplit : splitOnDot (joinDots (p :: rest)) = p :: rest :=
                  splitOnDot_joinDots (List.cons_ne_nil p rest) hdotfree
                have hval : validatePre (joinDots (p :: rest)) = true := by
                  rcases Bool.eq_false_or_eq_true (validatePre (joinDots (p :: rest))) with ht | hf
                  · exact ht
                  · exact absurd ⟨hjne, hf⟩ hval1
                intro q hq
                change q ∈ splitOnDot (joinDots (p :: rest)) at hq
                rw [hsplit] at hq
                unfold validatePre at hval
                rw [hsplit] at hval
                exact ⟨(hgood q hq).1, (hgood q hq).2, List.all_eq_true.mp hval q hq⟩
        · exact Option.noConfusion h

/-! ### Automatic version resolution: the fold invariant and C1 -/

theorem GreaterThan_false_iff (v o : GoVersion) :
    GreaterThan v o = false ↔ compareVer v o ≤ 0 := by
  unfold GreaterThan
  simp only [decide_eq_false_iff_not, gt_iff_lt, not_lt]

theorem GreaterThan_true_iff (v o : GoVersion) :
    GreaterThan v o = true ↔ 0 < compareVer v o := by
  unfold GreaterThan
  simp only [decide_eq_true_eq, gt_iff_lt]

theorem parsedVersions_nil : parsedVersions [] = [] := rfl

theorem parsedVersions_cons_none {e : Entry} {rest : List Entry}
    (h : NewVersion e.version = none) :
    parsedVersions (e :: rest) = parsedVersions rest := by
  unfold parsedVersions
  rw [List.filterMap_cons, h]

theorem parsedVersions_cons_some {e : Entry} {rest : List Entry} {v : GoVersion}
    (h : NewVersion e.version = some v) :
    parsedVersions (e :: rest) = v :: parsedVersions rest := by
  unfold parsedVersions
  rw [List.filterMap_cons, h]

theorem parsedVersions_PreOk {entries : List Entry} {v : GoVersion}
    (h : v ∈ parsedVersions entries) : PreOk v := by
  unfold parsedVersions at h
  rw [List.mem_filterMap] at h
  obtain ⟨e, _, he⟩ := h
  exact NewVersion_PreOk he

theorem foldHighest_go (entries : List Entry) :
    ∀ h0 : GoVersion, PreOk h0 →
      PreOk (entries.foldl foldStep h0) ∧
        (entries.foldl foldStep h0 = h0 ∨ entries.foldl foldStep h0 ∈ parsedVersions entries) ∧
        compareVer h0 (entries.foldl foldStep h0) ≤ 0 ∧
        ∀ v ∈ parsedVersions entries, compareVer v (entries.foldl foldStep h0) ≤ 0 := by
  induction entries with
  | nil =>
    intro h0 hP
    refine ⟨hP, Or.inl rfl, ?_, ?_⟩
    · rw [List.foldl_nil]
      have := compareVer_laws.refl0 h0 hP
      omega
    · intro v hv
      rw [parsedVersions_nil] at hv
      exact absurd hv (List.not_mem_nil v)
  | cons e rest ih =>
    intro h0 hP
    cases hv : NewVersion e.version with
    | none =>
      have estep : foldStep h0 e = h0 := by
        simp only [foldStep, hv]
      have estep2 : (e :: rest).foldl foldStep h0 = rest.foldl foldStep h0 := by
        rw [List.foldl_cons, estep]
      rw [estep2, parsedVersions_cons_none hv]
      exact ih h0 hP
    | some v =>
      have hPv : PreOk v := NewVersion_PreOk hv
      rw [parsedVersions_cons_some hv]
      by_cases hgt : GreaterThan v h0 = true
      · have estep : foldStep h0 e = v := by
          simp only [foldStep, hv, hgt, if_true]
        have estep2 : (e :: rest).foldl foldStep h0 = rest.foldl foldStep v := by
          rw [List.foldl_cons, estep]
        rw [estep2]
        obtain ⟨hP1, hP2, hP3, hP4⟩ := ih v hPv
        have hlt0 : compareVer h0 v < 0 := by
          have h1 := (GreaterThan_true_iff v h0).mp hgt
          have h2 := compareVer_laws.antisym v h0 hPv hP
          omega
        refine ⟨hP1, ?_, ?_, ?_⟩
        · rcases hP2 with h2 | h2
          · right
            rw [h2]
            exact List.mem_cons_self v (parsedVersions rest)
          · exact Or.inr (List.mem_cons_of_mem v h2)
        · exact le_of_lt (compareVer_laws.lt_of_lt_of_le hP hPv hP1 hlt0 hP3)
        · intro u hu
          rcases List.mem_cons.mp hu with h2 | h2
          · exact h2 ▸ hP3
          · exact hP4 u h2
      · have hle : compareVer v h0 ≤ 0 :=
          (GreaterThan_false_iff v h0).mp (Bool.not_eq_true _ ▸ eq_false_of_ne_true hgt)
        have hgf : GreaterThan v h0 = false := eq_false_of_ne_true hgt
        have estep : foldStep h0 e = h0 := by
          simp [foldStep, hv, hgf]
        have estep2 : (e :: rest).foldl foldStep h0 = rest.foldl foldStep h0 := by
          rw [List.foldl_cons, estep]
        rw [estep2]
        obtain ⟨hP1, hP2, hP3, hP4⟩ := ih h0 hP
        refine ⟨hP1, ?_, hP3, ?_⟩
        · rcases hP2 with h2 | h2
          · exact Or.inl h2
          · exact Or.inr (List.mem_cons_of_mem v h2)
        · intro u hu
          rcases List.mem_cons.mp hu with h2 | h2
          · subst h2
            exact compareVer_laws.trans_le u h0 _ (parsedVersions_PreOk
              (by rw [parsedVersions_cons_some hv]; exact List.mem_cons_self u (parsedVersions rest)))
              hP hP1 hle hP3
          · exact hP4 u h2

theorem IncPatch_pre (m : GoVersion) : (IncPatch m).pre = "" := by
  unfold IncPatch
  split_ifs with hc
  · rfl
  · push_neg at hc
    exact hc

theorem IncPatch_eq_of_pre_empty {m : GoVersion} (hpre : m.pre = "")
    (hbound : m.patch + 1 < uint64Mod) :
    IncPatch m = ⟨m.major, m.minor, m.patch + 1, "", ""⟩ := by
  unfold IncPatch
  rw [if_neg (not_not_intro hpre), Nat.mod_eq_of_lt hbound]
  cases m
  simp only at hpre
  rw [hpre]

theorem IncPatch_eq_of_pre_nonempty {m : GoVersion} (hpre : m.pre ≠ "") :
    IncPatch m = ⟨m.major, m.minor, m.patch, "", ""⟩ := by
  unfold IncPatch
  rw [if_pos hpre]

theorem compareVer_IncPatch_lt {m : GoVersion} (hP : PreOk m)
    (hbound : m.patch + 1 < uint64Mod) : compareVer m (IncPatch m) < 0 := by
  by_cases hpre : m.pre = ""
  · rw [IncPatch_eq_of_pre_empty hpre hbound]
    unfold compareVer compareSegment
    simp [hpre]
  · rw [IncPatch_eq_of_pre_nonempty hpre]
    unfold compareVer compareSegment
    simp [hpre]

/-- C1 counterexample: the manifest whose single entry has the valid
pre-release version `0.0.1-alpha` resolves automatically to `0.0.1`
(the library's `IncPatch` clears a pre-release without incrementing the
patch), while the claim's rule — maximum `0.0.1-alpha` with patch
incremented and pre-release cleared — yields `0.0.2`. -/
theorem claim_C1_counterexample :
    NewVersion "0.0.1-alpha" = some ⟨0, 0, 1, "alpha", ""⟩ ∧
      pickNewVersionAuto [⟨"0.0.1-alpha", 0, []⟩] = "0.0.1" ∧
      specAutoVersion [⟨"0.0.1-alpha", 0, []⟩] = "0.0.2" ∧
      pickNewVersionAuto [⟨"0.0.1-alpha", 0, []⟩] ≠
        specAutoVersion [⟨"0.0.1-alpha", 0, []⟩] := by
  refine ⟨rfl, rfl, rfl, ?_⟩
  decide

/-- C1 (amended): automatic resolution folds over the manifest keeping
the greatest parsable version, with `0.0.0` as the participating initial
value; the result is `IncPatch` of that maximum, which increments the
patch and clears metadata when the maximum has no pre-release, and
clears the pre-release and metadata leaving the patch unchanged
otherwise.  Whenever every parsable patch is below `2 ^ 64 - 1` (no Go
`uint64` wrap), the result is strictly greater than every parsable
version in the manifest. -/
theorem claim_C1 (entries : List Entry)
    (hb : ∀ v ∈ parsedVersions entries, v.patch + 1 < uint64Mod) :
    ∃ m : GoVersion,
      (m = v000 ∨ m ∈ parsedVersions entries) ∧
      (∀ v ∈ parsedVersions entries, GreaterThan v m = false) ∧
      pickNewVersionAuto entries = verString (IncPatch m) ∧
      (m.pre = "" → IncPatch m = ⟨m.major, m.minor, m.patch + 1, "", ""⟩) ∧
      (m.pre ≠ "" → IncPatch m = ⟨m.major, m.minor, m.patch, "", ""⟩) ∧
      ∀ v ∈ parsedVersions entries, GreaterThan (IncPatch m) v = true := by
  obtain ⟨hP, hmem, _, hmax⟩ := foldHighest_go entries v000 (Or.inl rfl)
  have hbm : (entries.foldl foldStep v000).patch + 1 < uint64Mod := by
    rcases hmem with h2 | h2
    · rw [h2]
      decide
    · exact hb _ h2
  have hPinc : PreOk (IncPatch (entries.foldl foldStep v000)) :=
    Or.inl (IncPatch_pre _)
  have hstep : compareVer (entries.foldl foldStep v000)
      (IncPatch (entries.foldl foldStep v000)) < 0 :=
    compareVer_IncPatch_lt hP hbm
  refine ⟨entries.foldl foldStep v000, hmem, ?_, rfl, ?_, ?_, ?_⟩
  · intro v hv
    exact (GreaterThan_false_iff v _).mpr (hmax v hv)
  · intro hpre
    exact IncPatch_eq_of_pre_empty hpre hbm
  · intro hpre
    exact IncPatch_eq_of_pre_nonempty hpre
  · intro v hv
    have hPv : PreOk v := parsedVersions_PreOk hv
    have hlt : compareVer v (IncPatch (entries.foldl foldStep v000)) < 0 :=
      compareVer_laws.lt_of_le_of_lt hPv hP hPinc (hmax v hv) hstep
    have hanti := compareVer_laws.antisym v (IncPatch (entries.foldl foldStep v000)) hPv hPinc
    rw [GreaterThan_true_iff]
    omega

/-- Witness for C1 at the concrete one-entry manifest `["1.2.3"]`: the
patch bound holds and the amended characterization applies. -/
theorem claim_C1_witness :
    (∀ v ∈ parsedVersions [(⟨"1.2.3", 0, []⟩ : Entry)], v.patch + 1 < uint64Mod) ∧
      ∃ m : GoVersion,
        (m = v000 ∨ m ∈ parsedVersions [(⟨"1.2.3", 0, []⟩ : Entry)]) ∧
        (∀ v ∈ parsedVersions [(⟨"1.2.3", 0, []⟩ : Entry)], GreaterThan v m = false) ∧
        pickNewVersionAuto [(⟨"1.2.3", 0, []⟩ : Entry)] = verString (IncPatch m) ∧
        (m.pre = "" → IncPatch m = ⟨m.major, m.minor, m.patch + 1, "", ""⟩) ∧
        (m.pre ≠ "" → IncPatch m = ⟨m.major, m.minor, m.patch, "", ""⟩) ∧
        ∀ v ∈ parsedVersions [(⟨"1.2.3", 0, []⟩ : Entry)],
          GreaterThan (IncPatch m) v = true := by
  constructor
  · decide
  · exact claim_C1 [⟨"1.2.3", 0, []⟩] (by decide)

end RelayUpdater
